import Mathlib

/-!
Verification of the ADDM graph-root-resolution-and-reporting engine
(`services/data_processor.py`) against its specification.

The development shallowly embeds the data-processing core:

* association lists with Python-`dict` semantics (`dinsert` models
  `d[k] = v`: the key keeps its first-insertion position, the value is
  overwritten),
* the property-blob normalizer (the two `re.sub` passes and the literal
  `str.replace` passes of `parse_properties`) as character-list scanners,
* a model of `json.loads` (`jsonParse`, integer numerals only),
* label parsing, node expansion (`process_nodes`), the root resolver
  (`find_node_roots` with its memoized breadth-first upward walk), and the
  node-to-root report builder (`create_node_root_mapping`, with a model of
  the pandas left merge).

Node ids are `Int` (the export's integer ids).  Missing CSV cells
(`pandas` NaN) are `Option.none`.  The Python `while queue` loop is
embedded with explicit fuel (`bfsLoopF`); `bfs_fuel_adequate` proves the
fuel bound `phi` is never hit, which is exactly the loop-termination
guarantee of the source.
-/

/-! ## Association lists with Python dict semantics -/

/-- Lookup in an association list (first binding wins, as in a Python dict,
whose keys are unique). -/
def alookup {α β : Type} [DecidableEq α] (m : List (α × β)) (k : α) : Option β :=
  match m with
  | [] => none
  | p :: t => if p.1 = k then some p.2 else alookup t k

/-- Python `d[k] = v`: overwrite in place if the key exists, else append. -/
def dinsert {α β : Type} [DecidableEq α] (m : List (α × β)) (k : α) (v : β) :
    List (α × β) :=
  match m with
  | [] => [(k, v)]
  | p :: t => if p.1 = k then (k, v) :: t else p :: dinsert t k v

theorem alookup_dinsert {α β : Type} [DecidableEq α] (m : List (α × β)) (k j : α) (v : β) :
    alookup (dinsert m k v) j = if j = k then some v else alookup m j := by
  induction m with
  | nil =>
    by_cases h : j = k
    · simp [dinsert, alookup, h]
    · have hk : ¬ k = j := fun hk => h hk.symm
      simp [dinsert, alookup, h, hk]
  | cons p t ih =>
    by_cases hp : p.1 = k
    · by_cases hj : j = k
      · subst hj
        simp [dinsert, alookup, hp]
      · have hkj : ¬ k = j := fun hk => hj hk.symm
        simp [dinsert, alookup, hp, hj, hkj]
    · by_cases hpj : p.1 = j
      · have hjk : ¬ j = k := fun h => hp (hpj.trans h)
        simp [dinsert, alookup, hp, hpj, hjk]
      · simp [dinsert, alookup, hp, hpj, ih]

theorem keys_dinsert_eq {α β : Type} [DecidableEq α] (m : List (α × β)) (k : α) (v : β) :
    (dinsert m k v).map Prod.fst =
      if k ∈ m.map Prod.fst then m.map Prod.fst else m.map Prod.fst ++ [k] := by
  induction m with
  | nil => simp [dinsert]
  | cons p t ih =>
    by_cases hp : p.1 = k
    · simp [dinsert, if_pos hp, hp]
    · have hk : ¬ k = p.1 := fun h => hp h.symm
      by_cases hm : k ∈ t.map Prod.fst
      · simp [dinsert, if_neg hp, ih, hm, hk]
      · simp [dinsert, if_neg hp, ih, hm, hk]

theorem keys_dinsert {α β : Type} [DecidableEq α] (m : List (α × β)) (k : α) (v : β)
    (h : k ∈ m.map Prod.fst) :
    (dinsert m k v).map Prod.fst = m.map Prod.fst := by
  rw [keys_dinsert_eq, if_pos h]

theorem mem_keys_dinsert {α β : Type} [DecidableEq α] (m : List (α × β)) (k j : α) (v : β)
    (h : j ∈ m.map Prod.fst) : j ∈ (dinsert m k v).map Prod.fst := by
  rw [keys_dinsert_eq]
  split
  · exact h
  · exact List.mem_append_left _ h

theorem mem_keys_dinsert_self {α β : Type} [DecidableEq α] (m : List (α × β)) (k : α) (v : β) :
    k ∈ (dinsert m k v).map Prod.fst := by
  rw [keys_dinsert_eq]
  split
  · assumption
  · exact List.mem_append_right _ (List.mem_singleton_self k)

theorem nodup_keys_dinsert {α β : Type} [DecidableEq α] (m : List (α × β)) (k : α) (v : β)
    (h : (m.map Prod.fst).Nodup) : ((dinsert m k v).map Prod.fst).Nodup := by
  rw [keys_dinsert_eq]
  split
  · exact h
  · next hm =>
    rw [List.nodup_append]
    exact ⟨h, List.nodup_singleton k, by simpa using hm⟩

theorem mem_of_alookup {α β : Type} [DecidableEq α] {m : List (α × β)} {k : α} {v : β}
    (h : alookup m k = some v) : (k, v) ∈ m := by
  induction m with
  | nil => simp [alookup] at h
  | cons p t ih =>
    by_cases hp : p.1 = k
    · rw [alookup, if_pos hp] at h
      have : p = (k, v) := by
        cases p
        simp only [Option.some.injEq] at h
        simp_all
      exact this ▸ List.mem_cons_self _ _
    · rw [alookup, if_neg hp] at h
      exact List.mem_cons_of_mem _ (ih h)

theorem alookup_isSome_iff_mem_keys {α β : Type} [DecidableEq α] (m : List (α × β)) (k : α) :
    (alookup m k).isSome ↔ k ∈ m.map Prod.fst := by
  induction m with
  | nil => simp [alookup]
  | cons p t ih =>
    by_cases hp : p.1 = k
    · simp [alookup, if_pos hp, hp]
    · simp only [alookup, if_neg hp, List.map_cons, List.mem_cons, ih]
      constructor
      · exact Or.inr
      · rintro (h | h)
        · exact absurd h.symm hp
        · exact h

/-- Extensionality for association lists whose key lists agree and have no
duplicates: equal lookups force equal lists. -/
theorem alist_ext {α β : Type} [DecidableEq α] (m₁ m₂ : List (α × β))
    (hk : m₁.map Prod.fst = m₂.map Prod.fst)
    (hnd : (m₁.map Prod.fst).Nodup)
    (hl : ∀ k, alookup m₁ k = alookup m₂ k) : m₁ = m₂ := by
  induction m₁ generalizing m₂ with
  | nil => cases m₂ <;> simp_all
  | cons p t ih =>
    cases m₂ with
    | nil => simp at hk
    | cons q s =>
      rw [List.map_cons, List.map_cons] at hk
      injection hk with h1 hkt
      have hv : p.2 = q.2 := by
        have h := hl p.1
        have e1 : alookup (p :: t) p.1 = some p.2 := by simp [alookup]
        have e2 : alookup (q :: s) p.1 = some q.2 := by simp [alookup, h1.symm]
        rw [e1, e2] at h
        exact Option.some.inj h
      have hpq : p = q := by
        obtain ⟨p1, p2⟩ := p
        obtain ⟨q1, q2⟩ := q
        simp only at h1 hv
        rw [h1, hv]
      subst hpq
      rw [List.map_cons, List.nodup_cons] at hnd
      refine congrArg (p :: ·) (ih s hkt hnd.2 ?_)
      intro k
      by_cases hkp : k = p.1
      · have h₁ : alookup t k = none := by
          cases h : alookup t k with
          | none => rfl
          | some v =>
            exact absurd (hkp ▸ List.mem_map_of_mem Prod.fst (mem_of_alookup h)) hnd.1
        have h₂ : alookup s k = none := by
          cases h : alookup s k with
          | none => rfl
          | some v =>
            have hm : k ∈ s.map Prod.fst :=
              List.mem_map_of_mem Prod.fst (mem_of_alookup h)
            rw [← hkt] at hm
            exact absurd (hkp ▸ hm) hnd.1
        rw [h₁, h₂]
      · have h := hl k
        simpa only [alookup, if_neg (fun hc : p.1 = k => hkp hc.symm)] using h

/-! ## The Root Resolver (`DataProcessor.find_node_roots` and helpers) -/

/-- `find_root_nodes`: node ids with no incoming relationship
(`all_nodes - target_nodes`). -/
def find_root_nodes (nodes : List Int) (edges : List (Int × Int)) : List Int :=
  nodes.filter (fun n => decide (¬ n ∈ edges.map Prod.snd))

/-- One step of `parent_map[target].append(source)` on a `defaultdict(list)`:
the key keeps its first-occurrence position, the source is appended. -/
def pmAppend (pm : List (Int × List Int)) (t s : Int) : List (Int × List Int) :=
  match pm with
  | [] => [(t, [s])]
  | e :: rest => if e.1 = t then (e.1, e.2 ++ [s]) :: rest else e :: pmAppend rest t s

/-- `build_parent_map`: reverse adjacency, target id to its list of source ids,
in edge order.  An edge is the pair `(source_id, target_id)`. -/
def build_parent_map (edges : List (Int × Int)) : List (Int × List Int) :=
  edges.foldl (fun pm e => pmAppend pm e.2 e.1) []

/-- `parent_map.get(curr, [])`. -/
def pmLookup (pm : List (Int × List Int)) (k : Int) : List Int :=
  match pm with
  | [] => []
  | e :: rest => if e.1 = k then e.2 else pmLookup rest k

/-- Total parent-list length of the adjacency entries whose key is not yet
visited: the enqueue budget the walk can still spend. -/
def pmWeight (pm : List (Int × List Int)) (visited : List Int) : Nat :=
  match pm with
  | [] => 0
  | e :: rest => (if e.1 ∈ visited then 0 else e.2.length) + pmWeight rest visited

/-- Loop variant of the breadth-first upward walk: the queue length plus the
total parent-list length of the entries not yet visited.  Every iteration of
the Python `while queue` loop strictly decreases it. -/
def phi (pm : List (Int × List Int)) (queue visited : List Int) : Nat :=
  queue.length + pmWeight pm visited

/-- The `while queue` loop of `find_root`, with explicit fuel.  `none` marks
fuel exhaustion (never reached, by `bfs_fuel_adequate`); `some none` is the
loop ending with an empty queue (no root reachable); `some (some (r, vis))`
is the early return on dequeuing a root `r`, together with the visited set
(`r` included, as `visited.add(curr)` runs before the root test). -/
def bfsLoopF (pm : List (Int × List Int)) (roots : List Int) :
    Nat → List Int → List Int → Option (Option (Int × List Int))
  | _, [], _ => some none
  | 0, _ :: _, _ => none
  | f + 1, curr :: rest, visited =>
    if curr ∈ visited then bfsLoopF pm roots f rest visited
    else if curr ∈ roots then some (some (curr, curr :: visited))
    else bfsLoopF pm roots f (rest ++ pmLookup pm curr) (curr :: visited)

theorem pmWeight_mono (pm : List (Int × List Int)) (c : Int) (visited : List Int) :
    pmWeight pm (c :: visited) ≤ pmWeight pm visited := by
  induction pm with
  | nil => simp [pmWeight]
  | cons e rest ih =>
    simp only [pmWeight]
    by_cases hv : e.1 ∈ visited
    · rw [if_pos hv, if_pos (List.mem_cons_of_mem _ hv)]
      omega
    · by_cases hc : e.1 ∈ c :: visited
      · rw [if_pos hc, if_neg hv]
        omega
      · rw [if_neg hc, if_neg hv]
        omega

theorem pmWeight_visit (pm : List (Int × List Int)) (curr : Int)
    (visited : List Int) (h : ¬ curr ∈ visited) :
    pmWeight pm (curr :: visited) + (pmLookup pm curr).length ≤ pmWeight pm visited := by
  induction pm with
  | nil => simp [pmWeight, pmLookup]
  | cons e rest ih =>
    by_cases he : e.1 = curr
    · have hnv : ¬ e.1 ∈ visited := fun hv => h (he ▸ hv)
      have hcv : e.1 ∈ curr :: visited := by simp [he]
      simp only [pmWeight, pmLookup, if_pos hcv, if_neg hnv, if_pos he]
      have := pmWeight_mono rest curr visited
      omega
    · have hmem : e.1 ∈ curr :: visited ↔ e.1 ∈ visited := by
        rw [List.mem_cons]
        exact or_iff_right he
      by_cases hv : e.1 ∈ visited
      · simp only [pmWeight, pmLookup, if_pos (hmem.mpr hv), if_pos hv, if_neg he]
        have := ih
        omega
      · simp only [pmWeight, pmLookup, if_neg (fun hc => hv (hmem.mp hc)),
          if_neg hv, if_neg he]
        have := ih
        omega

theorem phi_decrease (pm : List (Int × List Int)) (curr : Int)
    (rest visited : List Int) (h : ¬ curr ∈ visited) :
    phi pm (rest ++ pmLookup pm curr) (curr :: visited) < phi pm (curr :: rest) visited := by
  have := pmWeight_visit pm curr visited h
  simp only [phi, List.length_append, List.length_cons]
  omega

/-- The loop never exhausts fuel exceeding its variant: the source's `while`
loop terminates on every graph, cyclic or not. -/
theorem bfs_fuel_adequate (pm : List (Int × List Int)) (roots : List Int) :
    ∀ fuel queue visited, phi pm queue visited < fuel →
      (bfsLoopF pm roots fuel queue visited).isSome := by
  intro fuel
  induction fuel with
  | zero => intro queue visited h; omega
  | succ f ih =>
    intro queue visited h
    match queue with
    | [] => simp [bfsLoopF]
    | curr :: rest =>
      by_cases hv : curr ∈ visited
      · have : phi pm rest visited < f := by
          simp only [phi, List.length_cons] at h ⊢
          omega
        simpa [bfsLoopF, hv] using ih rest visited this
      · by_cases hr : curr ∈ roots
        · simp [bfsLoopF, hv, hr]
        · have hlt : phi pm (rest ++ pmLookup pm curr) (curr :: visited) < f := by
            have := phi_decrease pm curr rest visited hv
            simp only [phi, List.length_cons] at h this ⊢
            omega
          simpa [bfsLoopF, hv, hr] using ih _ _ hlt

/-- `find_root(n)`: memo hit, root self-map, or breadth-first walk with path
compression (every visited node is memoized to the found root).  Returns the
resolved root and the updated memo. -/
def find_root (pm : List (Int × List Int)) (roots : List Int)
    (memo : List (Int × Int)) (n : Int) : Int × List (Int × Int) :=
  match alookup memo n with
  | some r => (r, memo)
  | none =>
    if n ∈ roots then (n, dinsert memo n n)
    else
      match bfsLoopF pm roots (phi pm [n] [] + 1) [n] [] with
      | some (some p) => (p.1, p.2.foldl (fun m v => dinsert m v p.1) memo)
      | _ => (n, dinsert memo n n)

/-- The loop `for node_id in set(...): self.node_to_root[node_id] = find_root(node_id)`,
threading the memo and the `node_to_root` dict. -/
def findNodeRootsFrom (pm : List (Int × List Int)) (roots : List Int) :
    List Int → List (Int × Int) → List (Int × Int) → List (Int × Int)
  | [], _, ntr => ntr
  | n :: order, memo, ntr =>
    let p := find_root pm roots memo n
    findNodeRootsFrom pm roots order p.2 (dinsert ntr n p.1)

/-- `find_node_roots`: resolve every node id of `order` (the iteration order
of Python's `set(self.nodes_df['id(n)'].unique())`), starting from the
instance's current `node_to_root` dict `ntr` (`{}` on a fresh instance) and a
fresh memo. -/
def find_node_roots (nodes : List Int) (edges : List (Int × Int))
    (order : List Int) (ntr : List (Int × Int)) : List (Int × Int) :=
  findNodeRootsFrom (build_parent_map edges) (find_root_nodes nodes edges) order [] ntr

/-! ## Resolver lemmas -/

/-- The sequence of `(node, resolved root)` pairs the resolver loop produces,
threading only the memo: `node_to_root` is never read by `find_root`, so the
pairs do not depend on it. -/
def resolveSteps (pm : List (Int × List Int)) (roots : List Int) :
    List Int → List (Int × Int) → List (Int × Int)
  | [], _ => []
  | n :: order, memo =>
    let p := find_root pm roots memo n
    (n, p.1) :: resolveSteps pm roots order p.2

theorem findNodeRootsFrom_eq_foldl (pm : List (Int × List Int)) (roots : List Int) :
    ∀ (order : List Int) (memo ntr : List (Int × Int)),
      findNodeRootsFrom pm roots order memo ntr =
        (resolveSteps pm roots order memo).foldl (fun m q => dinsert m q.1 q.2) ntr := by
  intro order
  induction order with
  | nil => intro memo ntr; rfl
  | cons n rest ih =>
    intro memo ntr
    simp only [findNodeRootsFrom, resolveSteps, List.foldl_cons]
    exact ih _ _

/-- The last value bound to `k` in a pair sequence, if any. -/
def lastBind {α β : Type} [DecidableEq α] (ps : List (α × β)) (k : α) : Option β :=
  match ps with
  | [] => none
  | p :: t =>
    match lastBind t k with
    | some v => some v
    | none => if p.1 = k then some p.2 else none

theorem alookup_foldl_dinsert {α β : Type} [DecidableEq α] (ps : List (α × β)) :
    ∀ (m : List (α × β)) (k : α),
      alookup (ps.foldl (fun m q => dinsert m q.1 q.2) m) k =
        match lastBind ps k with
        | some v => some v
        | none => alookup m k := by
  induction ps with
  | nil => intro m k; rfl
  | cons p t ih =>
    intro m k
    simp only [List.foldl_cons, lastBind, ih]
    cases lastBind t k with
    | some v => rfl
    | none =>
      simp only [alookup_dinsert]
      by_cases h : k = p.1
      · rw [if_pos h, if_pos h.symm]
      · rw [if_neg h, if_neg (fun hc => h hc.symm)]

theorem mem_keys_foldl_dinsert_of_mem {α β : Type} [DecidableEq α] (ps : List (α × β)) :
    ∀ (m : List (α × β)) (k : α), k ∈ m.map Prod.fst →
      k ∈ (ps.foldl (fun m q => dinsert m q.1 q.2) m).map Prod.fst := by
  induction ps with
  | nil => intro m k h; exact h
  | cons p t ih =>
    intro m k h
    simp only [List.foldl_cons]
    exact ih _ _ (mem_keys_dinsert _ _ _ _ h)

theorem mem_keys_foldl_dinsert {α β : Type} [DecidableEq α] (ps : List (α × β)) :
    ∀ (m : List (α × β)) (k : α), k ∈ ps.map Prod.fst →
      k ∈ (ps.foldl (fun m q => dinsert m q.1 q.2) m).map Prod.fst := by
  induction ps with
  | nil => intro m k h; simp at h
  | cons p t ih =>
    intro m k h
    rw [List.map_cons] at h
    simp only [List.foldl_cons]
    rcases List.mem_cons.mp h with h' | h'
    · exact mem_keys_foldl_dinsert_of_mem t _ k (h' ▸ mem_keys_dinsert_self m p.1 p.2)
    · exact ih _ _ h'

theorem keys_foldl_dinsert_of_subset {α β : Type} [DecidableEq α] (ps : List (α × β)) :
    ∀ (m : List (α × β)), (∀ q ∈ ps, q.1 ∈ m.map Prod.fst) →
      (ps.foldl (fun m q => dinsert m q.1 q.2) m).map Prod.fst = m.map Prod.fst := by
  induction ps with
  | nil => intro m _; rfl
  | cons p t ih =>
    intro m h
    simp only [List.foldl_cons]
    have h1 : p.1 ∈ m.map Prod.fst := h p (List.mem_cons_self _ _)
    have hrest : ∀ q ∈ t, q.1 ∈ (dinsert m p.1 p.2).map Prod.fst := by
      intro q hq
      exact mem_keys_dinsert _ _ _ _ (h q (List.mem_cons_of_mem _ hq))
    rw [ih _ hrest, keys_dinsert _ _ _ h1]

theorem nodup_keys_foldl_dinsert {α β : Type} [DecidableEq α] (ps : List (α × β)) :
    ∀ (m : List (α × β)), (m.map Prod.fst).Nodup →
      ((ps.foldl (fun m q => dinsert m q.1 q.2) m).map Prod.fst).Nodup := by
  induction ps with
  | nil => intro m h; exact h
  | cons p t ih =>
    intro m h
    simp only [List.foldl_cons]
    exact ih _ (nodup_keys_dinsert _ _ _ h)

/-- Every binding of a memo or `node_to_root` dict maps a node either to
itself or to a member of the root set. -/
def rootedVals (roots : List Int) (m : List (Int × Int)) : Prop :=
  ∀ p ∈ m, p.2 = p.1 ∨ p.2 ∈ roots

theorem mem_dinsert {α β : Type} [DecidableEq α] {m : List (α × β)} {k : α} {v : β} {p : α × β}
    (h : p ∈ dinsert m k v) : p = (k, v) ∨ p ∈ m := by
  induction m with
  | nil =>
    simp [dinsert] at h
    exact Or.inl h
  | cons q t ih =>
    by_cases hq : q.1 = k
    · simp only [dinsert, if_pos hq] at h
      rcases List.mem_cons.mp h with h' | h'
      · exact Or.inl h'
      · exact Or.inr (List.mem_cons_of_mem _ h')
    · simp only [dinsert, if_neg hq] at h
      rcases List.mem_cons.mp h with h' | h'
      · exact Or.inr (h' ▸ List.mem_cons_self _ _)
      · rcases ih h' with h'' | h''
        · exact Or.inl h''
        · exact Or.inr (List.mem_cons_of_mem _ h'')

theorem rootedVals_dinsert {roots : List Int} {m : List (Int × Int)} {k v : Int}
    (hm : rootedVals roots m) (hv : v = k ∨ v ∈ roots) :
    rootedVals roots (dinsert m k v) := by
  intro p hp
  rcases mem_dinsert hp with h | h
  · subst h; exact hv
  · exact hm p h

/-- A successful breadth-first walk returns a member of the root set. -/
theorem bfs_root_mem (pm : List (Int × List Int)) (roots : List Int) :
    ∀ (fuel : Nat) (queue visited : List Int) (r : Int) (out : List Int),
      bfsLoopF pm roots fuel queue visited = some (some (r, out)) → r ∈ roots := by
  intro fuel
  induction fuel with
  | zero =>
    intro queue visited r out h
    cases queue with
    | nil => simp [bfsLoopF] at h
    | cons c rest => simp [bfsLoopF] at h
  | succ f ih =>
    intro queue visited r out h
    cases queue with
    | nil => simp [bfsLoopF] at h
    | cons c rest =>
      by_cases hv : c ∈ visited
      · rw [bfsLoopF, if_pos hv] at h
        exact ih _ _ _ _ h
      · by_cases hr : c ∈ roots
        · rw [bfsLoopF, if_neg hv, if_pos hr] at h
          simp only [Option.some.injEq, Prod.mk.injEq] at h
          exact h.1 ▸ hr
        · rw [bfsLoopF, if_neg hv, if_neg hr] at h
          exact ih _ _ _ _ h

/-- A successful walk's visited list stays duplicate-free: no node is visited
twice in a single traversal. -/
theorem bfs_visited_nodup (pm : List (Int × List Int)) (roots : List Int) :
    ∀ (fuel : Nat) (queue visited : List Int) (r : Int) (out : List Int),
      visited.Nodup → bfsLoopF pm roots fuel queue visited = some (some (r, out)) →
      out.Nodup := by
  intro fuel
  induction fuel with
  | zero =>
    intro queue visited r out _ h
    cases queue with
    | nil => simp [bfsLoopF] at h
    | cons c rest => simp [bfsLoopF] at h
  | succ f ih =>
    intro queue visited r out hnd h
    cases queue with
    | nil => simp [bfsLoopF] at h
    | cons c rest =>
      by_cases hv : c ∈ visited
      · rw [bfsLoopF, if_pos hv] at h
        exact ih _ _ _ _ hnd h
      · by_cases hr : c ∈ roots
        · rw [bfsLoopF, if_neg hv, if_pos hr] at h
          simp only [Option.some.injEq, Prod.mk.injEq] at h
          exact h.2 ▸ List.Nodup.cons hv hnd
        · rw [bfsLoopF, if_neg hv, if_neg hr] at h
          exact ih _ _ _ _ (List.Nodup.cons hv hnd) h

theorem rootedVals_foldl_dinsert {roots : List Int} {r : Int} (hr : r ∈ roots) :
    ∀ (vis : List Int) (memo : List (Int × Int)), rootedVals roots memo →
      rootedVals roots (vis.foldl (fun m v => dinsert m v r) memo) := by
  intro vis
  induction vis with
  | nil => intro memo hm; exact hm
  | cons v t ih =>
    intro memo hm
    simp only [List.foldl_cons]
    exact ih _ (rootedVals_dinsert hm (Or.inr hr))

/-- `find_root` returns the node itself or a root, and preserves the memo
invariant. -/
theorem find_root_spec (pm : List (Int × List Int)) (roots : List Int)
    (memo : List (Int × Int)) (n : Int) (hm : rootedVals roots memo) :
    ((find_root pm roots memo n).1 = n ∨ (find_root pm roots memo n).1 ∈ roots) ∧
      rootedVals roots (find_root pm roots memo n).2 := by
  rw [find_root]
  cases hq : alookup memo n with
  | some r =>
    refine ⟨?_, hm⟩
    rcases hm _ (mem_of_alookup hq) with h | h
    · exact Or.inl h
    · exact Or.inr h
  | none =>
    by_cases hr : n ∈ roots
    · rw [if_pos hr]
      exact ⟨Or.inl rfl, rootedVals_dinsert hm (Or.inl rfl)⟩
    · rw [if_neg hr]
      cases hb : bfsLoopF pm roots (phi pm [n] [] + 1) [n] [] with
      | none => exact ⟨Or.inl rfl, rootedVals_dinsert hm (Or.inl rfl)⟩
      | some o =>
        cases o with
        | none => exact ⟨Or.inl rfl, rootedVals_dinsert hm (Or.inl rfl)⟩
        | some p =>
          have hroot : p.1 ∈ roots := bfs_root_mem pm roots _ _ _ _ _ (by
            rw [hb])
          exact ⟨Or.inr hroot, rootedVals_foldl_dinsert hroot _ _ hm⟩

theorem findNodeRootsFrom_rooted (pm : List (Int × List Int)) (roots : List Int) :
    ∀ (order : List Int) (memo ntr : List (Int × Int)),
      rootedVals roots memo → rootedVals roots ntr →
      rootedVals roots (findNodeRootsFrom pm roots order memo ntr) := by
  intro order
  induction order with
  | nil => intro memo ntr _ hntr; exact hntr
  | cons n rest ih =>
    intro memo ntr hmemo hntr
    have hspec := find_root_spec pm roots memo n hmemo
    exact ih _ _ hspec.2 (rootedVals_dinsert hntr hspec.1)

theorem findNodeRootsFrom_isSome (pm : List (Int × List Int)) (roots : List Int) :
    ∀ (order : List Int) (memo ntr : List (Int × Int)) (n : Int),
      (n ∈ order ∨ (alookup ntr n).isSome) →
      (alookup (findNodeRootsFrom pm roots order memo ntr) n).isSome := by
  intro order
  induction order with
  | nil =>
    intro memo ntr n h
    rcases h with h | h
    · simp at h
    · exact h
  | cons m rest ih =>
    intro memo ntr n h
    simp only [findNodeRootsFrom]
    refine ih _ _ n ?_
    rcases h with h | h
    · rcases List.mem_cons.mp h with h' | h'
      · refine Or.inr ?_
        rw [alookup_dinsert, if_pos h']
        rfl
      · exact Or.inl h'
    · refine Or.inr ?_
      rw [alookup_dinsert]
      by_cases hn : n = m
      · rw [if_pos hn]; rfl
      · rw [if_neg hn]; exact h

theorem findNodeRootsFrom_domain (pm : List (Int × List Int)) (roots : List Int) :
    ∀ (order : List Int) (memo ntr : List (Int × Int)) (n : Int),
      (alookup (findNodeRootsFrom pm roots order memo ntr) n).isSome →
      n ∈ order ∨ (alookup ntr n).isSome := by
  intro order
  induction order with
  | nil => intro memo ntr n h; exact Or.inr h
  | cons m rest ih =>
    intro memo ntr n h
    simp only [findNodeRootsFrom] at h
    rcases ih _ _ n h with h' | h'
    · exact Or.inl (List.mem_cons_of_mem _ h')
    · rw [alookup_dinsert] at h'
      by_cases hn : n = m
      · exact Or.inl (hn ▸ List.mem_cons_self _ _)
      · rw [if_neg hn] at h'
        exact Or.inr h'

/-! ## Claims C1, C2, C3, C9 -/

/-- C1 counterexample.  Nodes `{1, 2, 3, 4}`, edges `2→1`, `3→1`, `4→2`
(so `3` and `4` are roots, node `1` has parents `[2, 3]`, node `2` has parent
`[4]`).  Processing order `[1, 2, 3, 4]` resolves node `2` to root `3`: the
walk from `1` visits `2` on the way and path compression memoizes `2 ↦ 3`
before `2`'s own walk (which would reach `4`) ever runs.  Processing order
`[2, 1, 3, 4]` resolves node `2` first, to root `4`.  The RootIndex therefore
depends on the node processing order, refuting the claim. -/
theorem c1_order_counterexample :
    alookup (find_node_roots [1, 2, 3, 4] [(2, 1), (3, 1), (4, 2)] [1, 2, 3, 4] []) 2 =
      some 3 ∧
    alookup (find_node_roots [1, 2, 3, 4] [(2, 1), (3, 1), (4, 2)] [2, 1, 3, 4] []) 2 =
      some 4 ∧
    (3 : Int) ≠ 4 :=
  ⟨by decide, by decide, by decide⟩

/-- C1 (amended): resolution is deterministic and idempotent for a fixed
processing order — invoking `find_node_roots` a second time on the same graph
and order, over the `node_to_root` mapping left by the first run, reproduces
that mapping exactly — but the mapping is not in general independent of the
processing order (`c1_order_counterexample`). -/
theorem c1_resolver_idempotent (nodes : List Int) (edges : List (Int × Int))
    (order : List Int) :
    find_node_roots nodes edges order (find_node_roots nodes edges order []) =
      find_node_roots nodes edges order [] := by
  set pm := build_parent_map edges with hpm
  set roots := find_root_nodes nodes edges with hroots
  set ps := resolveSteps pm roots order [] with hps
  have hrun : ∀ ntr, find_node_roots nodes edges order ntr =
      ps.foldl (fun m q => dinsert m q.1 q.2) ntr := by
    intro ntr
    rw [find_node_roots, ← hpm, ← hroots, findNodeRootsFrom_eq_foldl, ← hps]
  have hsub : ∀ q ∈ ps, q.1 ∈ (ps.foldl (fun m q => dinsert m q.1 q.2)
      ([] : List (Int × Int))).map Prod.fst := by
    intro q hq
    exact mem_keys_foldl_dinsert ps [] q.1 (List.mem_map_of_mem Prod.fst hq)
  rw [hrun, hrun]
  refine alist_ext _ _ ?_ ?_ ?_
  · exact keys_foldl_dinsert_of_subset ps _ hsub
  · exact nodup_keys_foldl_dinsert ps _
      (keys_foldl_dinsert_of_subset ps _ hsub ▸
        nodup_keys_foldl_dinsert ps [] List.nodup_nil)
  · intro k
    rw [alookup_foldl_dinsert, alookup_foldl_dinsert]
    cases h : lastBind ps k with
    | some v => rfl
    | none => rfl

/-- C2: after the resolver runs, the RootIndex is defined for every processed
node id `n`, and maps `n` either to itself or to a member of the root set
(a node id with no incoming edge). -/
theorem c2_rootindex_total_rooted (nodes : List Int) (edges : List (Int × Int))
    (order : List Int) (n : Int) (h : n ∈ order) :
    ∃ r, alookup (find_node_roots nodes edges order []) n = some r ∧
      (r = n ∨ r ∈ find_root_nodes nodes edges) := by
  have hsome : (alookup (find_node_roots nodes edges order []) n).isSome :=
    findNodeRootsFrom_isSome _ _ order [] [] n (Or.inl h)
  obtain ⟨r, hr⟩ := Option.isSome_iff_exists.mp hsome
  refine ⟨r, hr, ?_⟩
  have hrooted : rootedVals (find_root_nodes nodes edges)
      (find_node_roots nodes edges order []) :=
    findNodeRootsFrom_rooted _ _ order [] [] (fun p hp => absurd hp (by simp))
      (fun p hp => absurd hp (by simp))
  rcases hrooted _ (mem_of_alookup hr) with h' | h'
  · exact Or.inl h'
  · exact Or.inr h'

/-- C2 witness: the one-node graph with no edges, where node 1 resolves to
itself (and is in fact a root). -/
theorem c2_rootindex_total_rooted_witness :
    ∃ r, alookup (find_node_roots [1] [] [1] []) 1 = some r ∧
      (r = 1 ∨ r ∈ find_root_nodes [1] []) :=
  c2_rootindex_total_rooted [1] [] [1] 1 (by decide)

/-- C3: the resolver terminates on every input graph.  First conjunct: the
`while queue` loop, run with any fuel exceeding its variant `phi` (and
`find_root` supplies `phi + 1`), always finishes — fuel exhaustion (`none`)
is unreachable, so the embedded loop is the Python loop, which terminates on
every graph, cyclic ones included.  Second conjunct: a single traversal never
visits a node twice (the visited list stays duplicate-free).  Third conjunct:
on the two-node cycle `a→b`, `b→a` with empty root set, the resolver returns
the fallback self-mappings `{a: a, b: b}`. -/
theorem c3_resolver_terminates :
    (∀ (pm : List (Int × List Int)) (roots : List Int) (fuel : Nat)
        (queue visited : List Int), phi pm queue visited < fuel →
        (bfsLoopF pm roots fuel queue visited).isSome) ∧
    (∀ (pm : List (Int × List Int)) (roots : List Int) (fuel : Nat)
        (queue visited : List Int) (r : Int) (out : List Int), visited.Nodup →
        bfsLoopF pm roots fuel queue visited = some (some (r, out)) → out.Nodup) ∧
    find_node_roots [1, 2] [(1, 2), (2, 1)] [1, 2] [] = [(1, 1), (2, 2)] :=
  ⟨fun pm roots => bfs_fuel_adequate pm roots,
   fun pm roots => bfs_visited_nodup pm roots, by decide⟩

/-- A resolver variant following the claim's words for C9, for comparison:
"dangling ids reached during the upward traversal are dead ends (they ...
contribute no parents)" — the reverse adjacency is restricted to keys that
are ingested node ids, so a dangling id contributes no parents. -/
def find_node_roots_dangling_cut (nodes : List Int) (edges : List (Int × Int))
    (order : List Int) (ntr : List (Int × Int)) : List (Int × Int) :=
  findNodeRootsFrom ((build_parent_map edges).filter (fun e => decide (e.1 ∈ nodes)))
    (find_root_nodes nodes edges) order [] ntr

/-- C9 counterexample.  Nodes `{1, 3}`, edges `2→1` and `3→2`, so id `2` is
dangling (an edge endpoint that is not an ingested node).  The code's walk
from node `1` moves to the dangling id `2` and on through `2`'s parent entry
to the root `3`: the dangling id does contribute parents, and `1` resolves to
`3`.  Under the claim's reading (dangling ids are dead ends contributing no
parents, `find_node_roots_dangling_cut`), `1` would fall back to itself. -/
theorem c9_dangling_counterexample :
    alookup (find_node_roots [1, 3] [(2, 1), (3, 2)] [1, 3] []) 1 = some 3 ∧
    alookup (find_node_roots_dangling_cut [1, 3] [(2, 1), (3, 2)] [1, 3] []) 1 =
      some 1 ∧
    (3 : Int) ≠ 1 :=
  ⟨by decide, by decide, by decide⟩

/-- C9 (amended): with edges that reference ids outside the node set, the
resolver still terminates without raising (the embedding is total, backed by
the fuel-adequacy half of `c3_resolver_terminates`), the RootIndex is defined
for exactly the processed node ids, and dangling ids are never in the root
set — but a dangling id that is itself an edge target does contribute its
parent entry to the traversal (`c9_dangling_counterexample`). -/
theorem c9_dangling_safe (nodes : List Int) (edges : List (Int × Int))
    (order : List Int) :
    (∀ n, (alookup (find_node_roots nodes edges order []) n).isSome ↔ n ∈ order) ∧
    (∀ r, r ∈ find_root_nodes nodes edges → r ∈ nodes) := by
  constructor
  · intro n
    constructor
    · intro h
      rcases findNodeRootsFrom_domain _ _ order [] [] n h with h' | h'
      · exact h'
      · simp [alookup] at h'
    · intro h
      exact findNodeRootsFrom_isSome _ _ order [] [] n (Or.inl h)
  · intro r hr
    exact List.mem_of_mem_filter hr

/-! ## The Property Parser (`DataProcessor.parse_properties`) -/

/-- Python `str.strip()` whitespace set. -/
def pyIsSpace (c : Char) : Bool :=
  c == ' ' || c == '\t' || c == '\n' || c == '\r' || c == '\x0b' || c == '\x0c'

/-- Python regex `\w` (ASCII range, which covers the export's data):
digits, upper- and lower-case letters, underscore. -/
def isWordChar (c : Char) : Bool :=
  (48 ≤ c.toNat && c.toNat ≤ 57) || (65 ≤ c.toNat && c.toNat ≤ 90) ||
    (97 ≤ c.toNat && c.toNat ≤ 122) || c.toNat == 95

/-- The character class `[^",\{\}\[\]]` of the value-quoting regex. -/
def inClassC (c : Char) : Bool :=
  !(c == '"' || c == ',' || c == '\x7b' || c == '\x7d' || c == '[' || c == ']')

/-- Python `str.strip()`: drop whitespace from both ends. -/
def pyStrip (cs : List Char) : List Char :=
  ((cs.dropWhile pyIsSpace).reverse.dropWhile pyIsSpace).reverse

/-- Python `str.strip('[]')`: drop bracket characters from both ends. -/
def stripBrackets (cs : List Char) : List Char :=
  ((cs.dropWhile (fun c => c == '[' || c == ']')).reverse.dropWhile
    (fun c => c == '[' || c == ']')).reverse

/-- Python `str.split(',')` (on the empty string it yields `[""]`). -/
def splitCommaGo (acc : List Char) : List Char → List (List Char)
  | [] => [acc.reverse]
  | c :: t => if c = ',' then acc.reverse :: splitCommaGo [] t else splitCommaGo (c :: acc) t

def splitComma (cs : List Char) : List (List Char) := splitCommaGo [] cs

/-- Scanner for `re.sub(r'(\w+):', r'"\1":', s)`: a maximal run of word
characters immediately followed by `:` is wrapped in quotes.  `run` holds the
current word run, reversed; its fate is decided at the first non-word
character (or the end of input). -/
def sub1Go (run : List Char) : List Char → List Char
  | [] => run.reverse
  | c :: t =>
    if isWordChar c then sub1Go (c :: run) t
    else if c = ':' then
      if run.isEmpty then ':' :: sub1Go [] t
      else '"' :: (run.reverse ++ '"' :: ':' :: sub1Go [] t)
    else run.reverse ++ c :: sub1Go [] t

def sub1 (cs : List Char) : List Char := sub1Go [] cs

/-- Scanner for `re.sub(r':\s*([^",\{\}\[\]]+?)(?=,|\})', ...)`, which quotes
an unquoted value: after a `:`, a nonempty run of class characters up to a
lookahead `,` or `}` becomes `: "<run stripped>"`.  `acc` (reversed) collects
the class run after a pending `:`; `none` is normal scanning.  The whitespace
between `:` and the value is part of the run (the class admits blanks, and
the engine trades `\s*` against the lazy group), so stripping the whole run
matches the engine's `group(1).strip()` on every split.  A colon inside a
failed run cannot start a match of its own — its class run reaches the same
blocking character — so resuming in normal mode after the block is faithful. -/
def sub2Go : Option (List Char) → List Char → List Char
  | none, [] => []
  | none, c :: t => if c = ':' then sub2Go (some []) t else c :: sub2Go none t
  | some acc, [] => ':' :: acc.reverse
  | some acc, c :: t =>
    if c = ',' ∨ c = '\x7d' then
      if acc.isEmpty then ':' :: c :: sub2Go none t
      else ':' :: ' ' :: '"' :: (pyStrip acc.reverse ++ '"' :: c :: sub2Go none t)
    else if inClassC c then sub2Go (some (c :: acc)) t
    else ':' :: (acc.reverse ++ c :: sub2Go none t)

def sub2 (cs : List Char) : List Char := sub2Go none cs

/-- Python `str.replace(pat, repl)`: leftmost non-overlapping occurrences,
scanning resumes after each replacement.  `skip` counts pattern characters
still to drop after a match. -/
def replTokGo (pat repl : List Char) : Nat → List Char → List Char
  | _, [] => []
  | n + 1, _ :: t => replTokGo pat repl n t
  | 0, c :: t =>
    if pat.isPrefixOf (c :: t) then repl ++ replTokGo pat repl (pat.length - 1) t
    else c :: replTokGo pat repl 0 t

def pyReplace (cs pat repl : List Char) : List Char := replTokGo pat repl 0 cs

/-- A decoded JSON value.  `num` holds integers only: fractional or exponent
numerals are outside this model (the parser rejects them), which none of the
verified properties exercise — after normalization every scalar the pipeline
decodes is a quoted string, `true`, `false` or `null`. -/
inductive Json where
  | str : String → Json
  | num : Int → Json
  | bool : Bool → Json
  | null : Json
  | arr : List Json → Json
  | obj : List (String × Json) → Json

/-- JSON whitespace. -/
def skipWs (cs : List Char) : List Char :=
  cs.dropWhile (fun c => c == ' ' || c == '\t' || c == '\n' || c == '\r')

/-- The body of a JSON string after the opening quote: the decoded characters
and the rest after the closing quote.  `\uXXXX` escapes and raw control
characters are rejected (out of the model's scope; the pipeline's normalized
text never contains them). -/
def parseStrChars : List Char → Option (List Char × List Char)
  | [] => none
  | c :: t =>
    if c = '"' then some ([], t)
    else if c = '\\' then
      match t with
      | [] => none
      | e :: t2 =>
        match (if e = '"' then some '"' else if e = '\\' then some '\\'
               else if e = '/' then some '/' else if e = 'n' then some '\n'
               else if e = 't' then some '\t' else if e = 'r' then some '\r'
               else if e = 'b' then some '\x08' else if e = 'f' then some '\x0c'
               else none) with
        | none => none
        | some d =>
          match parseStrChars t2 with
          | none => none
          | some (s, rest) => some (d :: s, rest)
    else if c.toNat < 32 then none
    else
      match parseStrChars t with
      | none => none
      | some (s, rest) => some (c :: s, rest)

def digitsToNat (ds : List Char) : Nat :=
  ds.foldl (fun a c => a * 10 + (c.toNat - 48)) 0

/-- An integer numeral per the JSON grammar (`-?(0|[1-9][0-9]*)`), rejected
when a fraction or exponent follows (floats are outside the model). -/
def parseNatLit (cs : List Char) : Option (Nat × List Char) :=
  match cs with
  | [] => none
  | c :: t =>
    if c.isDigit then
      let ds := c :: t.takeWhile Char.isDigit
      let rest := t.dropWhile Char.isDigit
      if c = '0' ∧ ds.length > 1 then none
      else
        match rest with
        | '.' :: _ => none
        | 'e' :: _ => none
        | 'E' :: _ => none
        | _ => some (digitsToNat ds, rest)
    else none

def parseIntLit (cs : List Char) : Option (Int × List Char) :=
  match cs with
  | '-' :: t =>
    match parseNatLit t with
    | some (n, rest) => some (-(n : Int), rest)
    | none => none
  | _ =>
    match parseNatLit cs with
    | some (n, rest) => some ((n : Int), rest)
    | none => none

/-- Parser mode: a value, an object's members, or an array's items. -/
inductive PMode where
  | val
  | members
  | items

/-- Parser output for each mode. -/
inductive POut where
  | v : Json → POut
  | kvs : List (String × Json) → POut
  | vs : List Json → POut

/-- Recursive-descent JSON parser with fuel (structural, so concrete inputs
evaluate by `rfl`/`decide`; `jsonParse` supplies fuel exceeding every need).
Object members fold into a dict with `dinsert`, as CPython's decoder builds
its dict (first-occurrence position, last value on duplicate keys). -/
def pj : Nat → PMode → List Char → Option (POut × List Char)
  | 0, _, _ => none
  | f + 1, PMode.val, cs =>
    match cs with
    | [] => none
    | c :: t =>
      if c = '\x7b' then
        let t2 := skipWs t
        if t2.head? = some '\x7d' then some (POut.v (Json.obj []), t2.tail)
        else
          match pj f PMode.members t2 with
          | some (POut.kvs ps, r) =>
            let r2 := skipWs r
            if r2.head? = some '\x7d' then
              some (POut.v (Json.obj (ps.foldl (fun m q => dinsert m q.1 q.2) [])),
                r2.tail)
            else none
          | _ => none
      else if c = '[' then
        let t2 := skipWs t
        if t2.head? = some ']' then some (POut.v (Json.arr []), t2.tail)
        else
          match pj f PMode.items t2 with
          | some (POut.vs xs, r) =>
            let r2 := skipWs r
            if r2.head? = some ']' then some (POut.v (Json.arr xs), r2.tail)
            else none
          | _ => none
      else if c = '"' then
        match parseStrChars t with
        | some (s, r) => some (POut.v (Json.str (String.mk s)), r)
        | none => none
      else if ("true").data.isPrefixOf cs then some (POut.v (Json.bool true), cs.drop 4)
      else if ("false").data.isPrefixOf cs then some (POut.v (Json.bool false), cs.drop 5)
      else if ("null").data.isPrefixOf cs then some (POut.v Json.null, cs.drop 4)
      else
        match parseIntLit cs with
        | some (n, r) => some (POut.v (Json.num n), r)
        | none => none
  | f + 1, PMode.members, cs =>
    match cs with
    | [] => none
    | c :: t =>
      if c = '"' then
        match parseStrChars t with
        | some (k, r1) =>
          let r1s := skipWs r1
          if r1s.head? = some ':' then
            match pj f PMode.val (skipWs r1s.tail) with
            | some (POut.v v, r3) =>
              let r3s := skipWs r3
              if r3s.head? = some ',' then
                match pj f PMode.members (skipWs r3s.tail) with
                | some (POut.kvs ps, r5) => some (POut.kvs ((String.mk k, v) :: ps), r5)
                | _ => none
              else some (POut.kvs [(String.mk k, v)], r3s)
            | _ => none
          else none
        | none => none
      else none
  | f + 1, PMode.items, cs =>
    match pj f PMode.val cs with
    | some (POut.v v, r) =>
      let r2 := skipWs r
      if r2.head? = some ',' then
        match pj f PMode.items (skipWs r2.tail) with
        | some (POut.vs xs, r3) => some (POut.vs (v :: xs), r3)
        | _ => none
      else some (POut.vs [v], r2)
    | _ => none

/-- Model of `json.loads`: a single JSON value, optionally surrounded by
whitespace, nothing after it. -/
def jsonParse (cs : List Char) : Option Json :=
  match pj (cs.length + 1) .val (skipWs cs) with
  | some (.v v, r) => if skipWs r = [] then some v else none
  | _ => none

/-- The normalization chain of `parse_properties` between `strip()` and
`json.loads`: quote keys, quote unquoted values, then the four literal
`str.replace` passes. -/
def normalizeProps (cs : List Char) : List Char :=
  pyReplace (pyReplace (pyReplace (pyReplace (sub2 (sub1 cs))
    (": \"true\"").data (": true").data)
    (": \"false\"").data (": false").data)
    (": \"null\"").data (": null").data)
    (": \"\"").data (": null").data

/-- `DataProcessor.parse_properties`.  `none` models a missing cell
(`pd.isna`).  The `try`/bare-`except` of the source makes every decoding
failure return the single-entry raw-passthrough mapping; the embedding is
total, so the function never raises by construction. -/
def parse_properties (blob : Option String) : Json :=
  match blob with
  | none => Json.obj []
  | some s =>
    let stripped := pyStrip s.data
    if stripped = ['\x7b', '\x7d'] then Json.obj []
    else
      match jsonParse (normalizeProps stripped) with
      | some v => v
      | none => Json.obj [("raw_properties", Json.str s)]

/-- `DataProcessor.parse_labels`: `['Unknown']` for a missing cell, else strip
bracket characters from the ends, split on commas, strip each token. -/
def parse_labels (ls : Option String) : List String :=
  match ls with
  | none => ["Unknown"]
  | some s => (splitComma (stripBrackets s.data)).map (fun cs => String.mk (pyStrip cs))

/-! ## The Label Expander (`DataProcessor.process_nodes`) -/

theorem lastBind_eq_none {α β : Type} [DecidableEq α] (ps : List (α × β)) (k : α)
    (h : ¬ k ∈ ps.map Prod.fst) : lastBind ps k = none := by
  induction ps with
  | nil => rfl
  | cons p t ih =>
    rw [List.map_cons] at h
    have h1 : ¬ p.1 = k := fun hc => h (hc ▸ List.mem_cons_self _ _)
    have h2 : ¬ k ∈ t.map Prod.fst := fun hc => h (List.mem_cons_of_mem _ hc)
    simp only [lastBind, ih h2, if_neg h1]

theorem lastBind_eq_alookup_of_nodup {α β : Type} [DecidableEq α]
    (ps : List (α × β)) (k : α) (h : (ps.map Prod.fst).Nodup) :
    lastBind ps k = alookup ps k := by
  induction ps with
  | nil => rfl
  | cons p t ih =>
    rw [List.map_cons, List.nodup_cons] at h
    by_cases hp : p.1 = k
    · have hnt : ¬ k ∈ t.map Prod.fst := hp ▸ h.1
      simp only [lastBind, alookup, lastBind_eq_none t k hnt, if_pos hp]
    · simp only [lastBind, alookup, ih h.2, if_neg hp]
      cases alookup t k <;> rfl

theorem alookup_foldl_dinsert_absent {α β : Type} [DecidableEq α]
    (ps : List (α × β)) (m : List (α × β)) (k : α) (h : ¬ k ∈ ps.map Prod.fst) :
    alookup (ps.foldl (fun m q => dinsert m q.1 q.2) m) k = alookup m k := by
  rw [alookup_foldl_dinsert, lastBind_eq_none ps k h]

theorem alookup_foldl_dinsert_present {α β : Type} [DecidableEq α]
    (ps : List (α × β)) (m : List (α × β)) (k : α) (v : β)
    (hnd : (ps.map Prod.fst).Nodup) (h : alookup ps k = some v) :
    alookup (ps.foldl (fun m q => dinsert m q.1 q.2) m) k = some v := by
  rw [alookup_foldl_dinsert, lastBind_eq_alookup_of_nodup ps k hnd, h]

/-- `jsonParse` only builds a top-level object through the `dinsert` fold, so
its key list never repeats (it models a Python dict). -/
theorem pj_val_obj_nodup :
    ∀ (f : Nat) (cs : List Char) (kvs : List (String × Json)) (r : List Char),
      pj f PMode.val cs = some (POut.v (Json.obj kvs), r) →
      (kvs.map Prod.fst).Nodup := by
  intro f cs kvs r h
  match f with
  | 0 => simp [pj] at h
  | f + 1 =>
    rw [pj.eq_def] at h
    repeat'
      first
      | (split at h)
      | (simp only [Option.some.injEq, Prod.mk.injEq, POut.v.injEq,
          Json.obj.injEq] at h)
    any_goals simp at h
    any_goals simp [h.1]
    any_goals (rw [← h.1]; exact nodup_keys_foldl_dinsert _ [] List.nodup_nil)

theorem jsonParse_obj_nodup (cs : List Char) (kvs : List (String × Json))
    (h : jsonParse cs = some (Json.obj kvs)) : (kvs.map Prod.fst).Nodup := by
  rw [jsonParse] at h
  split at h
  · next v r heq =>
    split at h
    · exact pj_val_obj_nodup _ _ _ _ (by rw [heq, Option.some.inj h])
    · exact absurd h (by simp)
  · exact absurd h (by simp)

/-- Whenever `parse_properties` yields a mapping, the mapping's keys are
unique (it models a Python dict). -/
theorem parse_properties_obj_nodup (b : Option String) (kvs : List (String × Json))
    (h : parse_properties b = Json.obj kvs) : (kvs.map Prod.fst).Nodup := by
  match b with
  | none =>
    simp only [parse_properties, Json.obj.injEq] at h
    exact h ▸ List.nodup_nil
  | some s =>
    simp only [parse_properties] at h
    split at h
    · simp only [Json.obj.injEq] at h
      exact h ▸ List.nodup_nil
    · split at h
      · next v heq => exact jsonParse_obj_nodup _ _ (heq.trans (congrArg some h))
      · simp only [Json.obj.injEq] at h
        exact h ▸ by simp

/-- One row of the node-by-label expansion: ExpandedRow as the Python dict
literal `{'node_id': ..., 'primary_label': ..., 'all_labels': ..., **properties}`
builds it — base keys first, then every property binding merged on top
(overwriting a base key if the property mapping contains it). -/
abbrev Row := List (String × Json)

/-- One raw node record (`id(n)`, `labels(n)`, `properties(n)`; `none` is a
missing CSV cell). -/
structure NodeRec where
  id : Int
  labels : Option String
  props : Option String

/-- The rows one node contributes: its parsed properties get
`properties['node_id'] = node_id` forced, then one row per parsed label. -/
def node_rows (nd : NodeRec) (kvs : List (String × Json)) : List Row :=
  let labels := parse_labels nd.labels
  let props := dinsert kvs "node_id" (Json.num nd.id)
  labels.map (fun l =>
    props.foldl (fun r q => dinsert r q.1 q.2)
      [("node_id", Json.num nd.id), ("primary_label", Json.str l),
       ("all_labels", Json.str (String.intercalate "|" labels))])

/-- `DataProcessor.process_nodes`: expand every node by its labels.  When a
property blob decodes to a non-mapping value, the Python
`properties['node_id'] = node_id` raises `TypeError`, the stage's `except`
re-raises, and no rows are produced: that is the `Except.error` branch. -/
def process_nodes : List NodeRec → Except String (List Row)
  | [] => Except.ok []
  | nd :: rest =>
    match parse_properties nd.props with
    | Json.obj kvs =>
      (match process_nodes rest with
       | Except.ok rs => Except.ok (node_rows nd kvs ++ rs)
       | Except.error e => Except.error e)
    | _ => Except.error "TypeError: properties decoded to a non-mapping value"

/-! ## Claims C4, C5 -/

/-- C4: the Property Parser never raises — the embedding is total by
construction, mirroring the source's `try`/bare-`except` — and whenever
normalization-plus-decoding of a blob fails, it returns exactly the
single-entry mapping `{"raw_properties": <the original blob>}`. -/
theorem c4_parse_failure_raw (s : String)
    (h : jsonParse (normalizeProps (pyStrip s.data)) = none) :
    parse_properties (some s) = Json.obj [("raw_properties", Json.str s)] := by
  have hne : ¬ pyStrip s.data = ['\x7b', '\x7d'] := by
    intro he
    have hok : jsonParse (normalizeProps (pyStrip s.data)) = some (Json.obj []) := by
      rw [he]
      rfl
    rw [hok] at h
    exact Option.noConfusion h
  simp only [parse_properties, if_neg hne, h]

/-- C4 witness: the empty blob fails to decode and takes the raw branch. -/
theorem c4_parse_failure_raw_witness :
    jsonParse (normalizeProps (pyStrip ("" : String).data)) = none ∧
    parse_properties (some "") = Json.obj [("raw_properties", Json.str "")] :=
  ⟨rfl, c4_parse_failure_raw "" rfl⟩

/-- C5 counterexample: a blank (whitespace-only) blob does not yield the
empty mapping — `json.loads` fails on the stripped empty text, so the parser
returns the raw-passthrough mapping instead. -/
theorem c5_blank_counterexample :
    parse_properties (some " ") = Json.obj [("raw_properties", Json.str " ")] ∧
    parse_properties (some " ") ≠ Json.obj [] := by
  refine ⟨rfl, ?_⟩
  intro hc
  rw [show parse_properties (some " ") =
    Json.obj [("raw_properties", Json.str " ")] from rfl] at hc
  simp at hc

/-- C5 (amended): an absent blob, or one whose stripped text is the
placeholder, yields the empty mapping; an empty or whitespace-only blob
instead falls into the parse-failure branch and yields the raw-passthrough
mapping. -/
theorem c5_placeholder_empty :
    parse_properties none = Json.obj [] ∧
    (∀ s : String, pyStrip s.data = ['\x7b', '\x7d'] →
      parse_properties (some s) = Json.obj []) ∧
    (∀ s : String, (∀ c ∈ s.data, pyIsSpace c = true) →
      parse_properties (some s) = Json.obj [("raw_properties", Json.str s)]) := by
  refine ⟨rfl, ?_, ?_⟩
  · intro s hs
    simp only [parse_properties, if_pos hs]
  · intro s hs
    have hstrip : pyStrip s.data = [] := by
      have h1 : s.data.dropWhile pyIsSpace = [] := List.dropWhile_eq_nil_iff.mpr hs
      simp [pyStrip, h1]
    simp only [parse_properties, hstrip]
    rfl

/-! ## Claims C7, C10 -/

theorem node_rows_length (nd : NodeRec) (kvs : List (String × Json)) :
    (node_rows nd kvs).length = (parse_labels nd.labels).length := by
  simp [node_rows]

theorem node_rows_mem (nd : NodeRec) (kvs : List (String × Json)) (row : Row)
    (h : row ∈ node_rows nd kvs) :
    ∃ l ∈ parse_labels nd.labels,
      row = (dinsert kvs "node_id" (Json.num nd.id)).foldl
        (fun r q => dinsert r q.1 q.2)
        [("node_id", Json.num nd.id), ("primary_label", Json.str l),
         ("all_labels", Json.str (String.intercalate "|" (parse_labels nd.labels)))] := by
  simp only [node_rows, List.mem_map] at h
  obtain ⟨l, hl, he⟩ := h
  exact ⟨l, hl, he.symm⟩

theorem row_lookup_node_id (nd : NodeRec) (kvs : List (String × Json))
    (base : Row) (hnd : (kvs.map Prod.fst).Nodup) :
    alookup ((dinsert kvs "node_id" (Json.num nd.id)).foldl
      (fun r q => dinsert r q.1 q.2) base) "node_id" = some (Json.num nd.id) := by
  by_cases hin : ("node_id" : String) ∈ (dinsert kvs "node_id" (Json.num nd.id)).map
      Prod.fst
  · apply alookup_foldl_dinsert_present
    · exact nodup_keys_dinsert _ _ _ hnd
    · rw [alookup_dinsert, if_pos rfl]
  · exact absurd (mem_keys_dinsert_self kvs "node_id" (Json.num nd.id)) hin

theorem row_lookup_absent_key (kvs : List (String × Json)) (key : String)
    (v : Json) (base : Row) (nid : Json)
    (hk : ¬ key ∈ kvs.map Prod.fst) (hne : key ≠ "node_id")
    (hbase : alookup base key = some v) :
    alookup ((dinsert kvs "node_id" nid).foldl
      (fun r q => dinsert r q.1 q.2) base) key = some v := by
  rw [alookup_foldl_dinsert_absent, hbase]
  rw [keys_dinsert_eq]
  split
  · exact hk
  · intro hc
    rcases List.mem_append.mp hc with hc | hc
    · exact hk hc
    · exact hne (List.mem_singleton.mp hc)

/-- C7 counterexample.  A property blob may itself contain a key named
`primary_label`; Python's `{'node_id': ..., 'primary_label': label, ...,
**properties}` lets the property binding override the bookkeeping column, so
the emitted row does not carry the parsed label as `primary_label`.  (The
row count itself is unaffected here: one label, one row.) -/
theorem c7_override_counterexample :
    process_nodes [⟨7, some "[A]", some "\x7bprimary_label: evil\x7d"⟩] =
      Except.ok [[("node_id", Json.num 7), ("primary_label", Json.str "evil"),
        ("all_labels", Json.str "A")]] ∧
    Json.str "evil" ≠ Json.str "A" := by
  refine ⟨rfl, ?_⟩
  intro hc
  injection hc with hs
  exact absurd hs (by decide)

/-- C7 (amended): when every node's property blob parses to a mapping, the
expander succeeds and the total row count equals the sum over all nodes of
the length of the node's parsed label list; each row carries its node's
`node_id`, and carries the label as `primary_label` and the `|`-joined label
list as `all_labels` whenever the node's parsed properties do not themselves
bind those keys (property bindings override the bookkeeping columns,
`c7_override_counterexample`; a non-mapping blob aborts the stage with a
`TypeError` instead of producing rows). -/
theorem c7_expander_rowcount (nodes : List NodeRec)
    (h : ∀ nd ∈ nodes, ∃ kvs, parse_properties nd.props = Json.obj kvs) :
    ∃ rows, process_nodes nodes = Except.ok rows ∧
      rows.length = (nodes.map (fun nd => (parse_labels nd.labels).length)).sum ∧
      (∀ row ∈ rows, ∃ nd ∈ nodes, ∃ l ∈ parse_labels nd.labels,
        ∃ kvs, parse_properties nd.props = Json.obj kvs ∧
          alookup row "node_id" = some (Json.num nd.id) ∧
          (¬ "primary_label" ∈ kvs.map Prod.fst →
            alookup row "primary_label" = some (Json.str l)) ∧
          (¬ "all_labels" ∈ kvs.map Prod.fst →
            alookup row "all_labels" =
              some (Json.str (String.intercalate "|" (parse_labels nd.labels))))) := by
  induction nodes with
  | nil => exact ⟨[], rfl, rfl, by simp⟩
  | cons nd rest ih =>
    obtain ⟨kvs, hkv⟩ := h nd (List.mem_cons_self _ _)
    obtain ⟨rs, hok, hlen, hmem⟩ := ih (fun x hx => h x (List.mem_cons_of_mem _ hx))
    refine ⟨node_rows nd kvs ++ rs, ?_, ?_, ?_⟩
    · rw [process_nodes, hkv, hok]
    · rw [List.length_append, node_rows_length, hlen, List.map_cons, List.sum_cons]
    · intro row hrow
      rcases List.mem_append.mp hrow with hrow | hrow
      · obtain ⟨l, hl, hre⟩ := node_rows_mem nd kvs row hrow
        have hnd : (kvs.map Prod.fst).Nodup := parse_properties_obj_nodup _ _ hkv
        refine ⟨nd, List.mem_cons_self _ _, l, hl, kvs, hkv, ?_, ?_, ?_⟩
        · rw [hre]
          exact row_lookup_node_id nd kvs _ hnd
        · intro habs
          rw [hre]
          exact row_lookup_absent_key kvs "primary_label" (Json.str l) _ _
            habs (by decide) (by rfl)
        · intro habs
          rw [hre]
          exact row_lookup_absent_key kvs "all_labels"
            (Json.str (String.intercalate "|" (parse_labels nd.labels))) _ _
            habs (by decide) (by rfl)
      · obtain ⟨nd', hnd', rest'⟩ := hmem row hrow
        exact ⟨nd', List.mem_cons_of_mem _ hnd', rest'⟩

/-- C7 witness: Scenario C's multi-label node with an empty property blob
yields two rows. -/
theorem c7_expander_rowcount_witness :
    ∃ rows, process_nodes [⟨5, some "[Role, Taggable]", some "\x7b\x7d"⟩] =
        Except.ok rows ∧
      rows.length = ([⟨5, some "[Role, Taggable]", some "\x7b\x7d"⟩].map
        (fun nd : NodeRec => (parse_labels nd.labels).length)).sum ∧
      (∀ row ∈ rows, ∃ nd ∈ [(⟨5, some "[Role, Taggable]", some "\x7b\x7d"⟩ : NodeRec)],
        ∃ l ∈ parse_labels nd.labels,
        ∃ kvs, parse_properties nd.props = Json.obj kvs ∧
          alookup row "node_id" = some (Json.num nd.id) ∧
          (¬ "primary_label" ∈ kvs.map Prod.fst →
            alookup row "primary_label" = some (Json.str l)) ∧
          (¬ "all_labels" ∈ kvs.map Prod.fst →
            alookup row "all_labels" =
              some (Json.str (String.intercalate "|" (parse_labels nd.labels))))) :=
  c7_expander_rowcount [⟨5, some "[Role, Taggable]", some "\x7b\x7d"⟩]
    (fun nd hnd => by
      rw [List.mem_singleton] at hnd
      subst hnd
      exact ⟨[], rfl⟩)

/-- C10 counterexample.  For a node whose labels field is the literal `"[]"`,
label parsing does return `[""]` and one row is emitted — but a property
blob binding `all_labels` overrides the bookkeeping column, so the row's
`all_labels` need not be the empty string. -/
theorem c10_override_counterexample :
    process_nodes [⟨3, some "[]", some "\x7ball_labels: zzz\x7d"⟩] =
      Except.ok [[("node_id", Json.num 3), ("primary_label", Json.str ""),
        ("all_labels", Json.str "zzz")]] ∧
    Json.str "zzz" ≠ Json.str "" := by
  refine ⟨rfl, ?_⟩
  intro hc
  injection hc with hs
  exact absurd hs (by decide)

/-- C10 (amended): a present-but-token-free labels field (`"[]"`) parses to
`[""]`, not `["Unknown"]` — the `Unknown` default applies only to an
absent/null field — and the expander emits exactly one row for such a node,
whose `primary_label` and `all_labels` are the empty string provided the
node's parsed properties do not themselves bind those keys
(`c10_override_counterexample`). -/
theorem c10_empty_label_tokens :
    parse_labels (some "[]") = [""] ∧
    parse_labels none = ["Unknown"] ∧
    (∀ (id : Int) (ps : Option String) (kvs : List (String × Json)),
      parse_properties ps = Json.obj kvs →
      ¬ "primary_label" ∈ kvs.map Prod.fst →
      ¬ "all_labels" ∈ kvs.map Prod.fst →
      (node_rows ⟨id, some "[]", ps⟩ kvs).length = 1 ∧
      ∀ row ∈ node_rows ⟨id, some "[]", ps⟩ kvs,
        alookup row "primary_label" = some (Json.str "") ∧
        alookup row "all_labels" = some (Json.str "")) := by
  refine ⟨rfl, rfl, ?_⟩
  intro id ps kvs hkv hp ha
  constructor
  · rw [node_rows_length]
    rfl
  · intro row hrow
    obtain ⟨l, hl, hre⟩ := node_rows_mem _ kvs row hrow
    have hl1 : l = "" := by
      have : parse_labels (⟨id, some "[]", ps⟩ : NodeRec).labels = [""] := rfl
      rw [this, List.mem_singleton] at hl
      exact hl
    subst hl1
    constructor
    · rw [hre]
      exact row_lookup_absent_key kvs "primary_label" (Json.str "") _ _
        hp (by decide) (by rfl)
    · rw [hre]
      exact row_lookup_absent_key kvs "all_labels" (Json.str "") _ _
        ha (by decide) (by rfl)

/-! ## The Report Builder's root-mapping table
(`DataProcessor.create_node_root_mapping_excel`) -/

/-- pandas key equality on scalar cells, as the merge compares the join
column.  In this pipeline the join keys are always integer node ids; `NaN`
never equals `NaN` in a pandas merge, hence `null` cells match nothing. -/
def cellEq : Option Json → Option Json → Bool
  | some (Json.num a), some (Json.num b) => a == b
  | some (Json.str a), some (Json.str b) => a == b
  | some (Json.bool a), some (Json.bool b) => a == b
  | _, _ => false

/-- The rows a single left row produces in `left.merge(right, on=key,
how='left')`: one output row per matching right row (left columns first,
then the right columns minus the key), or a single null-filled row when
nothing matches. -/
def mergeRows (key : String) (cols : List String) (R : List Row) (lr : Row) :
    List Row :=
  let ms := R.filter (fun rr => cellEq (alookup rr key) (alookup lr key))
  if ms.isEmpty then [lr ++ cols.map (fun c => (c, Json.null))]
  else ms.map (fun rr => lr ++ cols.map (fun c => (c, (alookup rr c).getD Json.null)))

/-- pandas `left.merge(right, on=key, how='left')` with the right table's
non-key columns `cols`. -/
def leftMergeOn (key : String) (cols : List String) (L R : List Row) : List Row :=
  L.flatMap (mergeRows key cols R)

/-- `self.parsed_nodes[['node_id', 'primary_label', 'all_labels']]` renamed to
the node side's column names. -/
def node_labels_of (parsed : List Row) : List Row :=
  parsed.map (fun r =>
    [("node_id", (alookup r "node_id").getD Json.null),
     ("node_label", (alookup r "primary_label").getD Json.null),
     ("node_all_labels", (alookup r "all_labels").getD Json.null)])

/-- The same selection renamed to the root side's column names. -/
def root_labels_of (parsed : List Row) : List Row :=
  parsed.map (fun r =>
    [("root_id", (alookup r "node_id").getD Json.null),
     ("root_label", (alookup r "primary_label").getD Json.null),
     ("root_all_labels", (alookup r "all_labels").getD Json.null)])

/-- One row of `mapping_data`: `{'node_id': n, 'root_id': r}`. -/
def mapping_pair_row (p : Int × Int) : Row :=
  [("node_id", Json.num p.1), ("root_id", Json.num p.2)]

/-- `create_node_root_mapping_excel`'s table: the non-self `(node, root)`
pairs, left-merged with the node-side and root-side label selections, then
the six output columns in order. -/
def create_node_root_mapping (ntr : List (Int × Int)) (parsed : List Row) :
    List Row :=
  let mapping := (ntr.filter (fun p => decide (p.1 ≠ p.2))).map mapping_pair_row
  let m1 := leftMergeOn "node_id" ["node_label", "node_all_labels"] mapping
    (node_labels_of parsed)
  let m2 := leftMergeOn "root_id" ["root_label", "root_all_labels"] m1
    (root_labels_of parsed)
  m2.map (fun r =>
    ["node_id", "node_label", "root_id", "root_label",
     "node_all_labels", "root_all_labels"].map
      (fun c => (c, (alookup r c).getD Json.null)))

theorem alookup_append {α β : Type} [DecidableEq α] (l r : List (α × β)) (k : α) :
    alookup (l ++ r) k =
      match alookup l k with
      | some v => some v
      | none => alookup r k := by
  induction l with
  | nil => rfl
  | cons p t ih =>
    by_cases hp : p.1 = k
    · simp [alookup, hp]
    · simp [alookup, hp, ih]

theorem mergeRows_length (key : String) (cols : List String) (R : List Row)
    (lr : Row) :
    (mergeRows key cols R lr).length =
      max 1 (R.filter (fun rr => cellEq (alookup rr key) (alookup lr key))).length := by
  simp only [mergeRows]
  split
  · next h =>
    rw [List.isEmpty_iff] at h
    simp [h]
  · next h =>
    rw [List.isEmpty_iff] at h
    rw [List.length_map,
      Nat.max_eq_right (Nat.one_le_iff_ne_zero.mpr (by
        intro hz
        exact h (List.eq_nil_of_length_eq_zero hz)))]

theorem mem_mergeRows {key : String} {cols : List String} {R : List Row}
    {lr row : Row} (h : row ∈ mergeRows key cols R lr) :
    ∃ extras, row = lr ++ extras := by
  simp only [mergeRows] at h
  split at h
  · exact ⟨_, List.mem_singleton.mp h⟩
  · rcases List.mem_map.mp h with ⟨rr, _, he⟩
    exact ⟨_, he.symm⟩

theorem mem_mergeRows_lookup {key : String} {cols : List String} {R : List Row}
    {lr row : Row} (k : String) (v : Json) (h : row ∈ mergeRows key cols R lr)
    (hv : alookup lr k = some v) : alookup row k = some v := by
  obtain ⟨extras, he⟩ := mem_mergeRows h
  rw [he, alookup_append, hv]

theorem sum_map_flatMap {α β : Type} (l : List α) (f : α → List β) (g : β → Nat) :
    ((l.flatMap f).map g).sum = (l.map (fun x => ((f x).map g).sum)).sum := by
  induction l with
  | nil => rfl
  | cons a t ih =>
    rw [List.flatMap_cons, List.map_append, List.sum_append, ih,
      List.map_cons, List.sum_cons]

theorem sum_map_const {β : Type} (l : List β) (g : β → Nat) (c : Nat)
    (h : ∀ x ∈ l, g x = c) : (l.map g).sum = l.length * c := by
  induction l with
  | nil => simp
  | cons a t ih =>
    rw [List.map_cons, List.sum_cons, h a (List.mem_cons_self _ _),
      ih (fun x hx => h x (List.mem_cons_of_mem _ hx)), List.length_cons,
      Nat.succ_mul]
    omega

theorem mapping_pair_row_node_id (p : Int × Int) :
    alookup (mapping_pair_row p) "node_id" = some (Json.num p.1) := rfl

theorem mapping_pair_row_root_id (p : Int × Int) :
    alookup (mapping_pair_row p) "root_id" = some (Json.num p.2) := rfl

/-- How many node-side label rows match node id `k` in the first merge. -/
def node_label_matches (parsed : List Row) (k : Int) : Nat :=
  ((node_labels_of parsed).filter
    (fun rr => cellEq (alookup rr "node_id") (some (Json.num k)))).length

/-- How many root-side label rows match root id `k` in the second merge. -/
def root_label_matches (parsed : List Row) (k : Int) : Nat :=
  ((root_labels_of parsed).filter
    (fun rr => cellEq (alookup rr "root_id") (some (Json.num k)))).length

/-! ## Claim C8 -/

/-- C8 counterexample.  Node `10` with labels `[X, Y]`, node `20` with label
`[Z]`, edge `20→10`: the RootIndex has exactly one non-self pair `(10, 20)`,
yet the table has two rows — the pandas left merge emits one output row per
matching label row (a cross product), it does not take the first match. -/
theorem c8_multilabel_counterexample :
    (match process_nodes [⟨10, some "[X, Y]", some "\x7b\x7d"⟩,
        ⟨20, some "[Z]", some "\x7b\x7d"⟩] with
     | Except.ok rs => some ((create_node_root_mapping
         (find_node_roots [10, 20] [(20, 10)] [10, 20] []) rs).length)
     | Except.error _ => none) = some 2 ∧
    ((find_node_roots [10, 20] [(20, 10)] [10, 20] []).filter
      (fun p => decide (p.1 ≠ p.2))).length = 1 ∧
    (2 : Nat) ≠ 1 :=
  ⟨rfl, rfl, by decide⟩

/-- C8 (amended): the root-mapping table contains, for every `(node, root)`
pair in RootIndex with `node ≠ root`, one row per pairing of the node's
label rows with the root's label rows (`max 1 · ` for a side with no label
metadata, which the left join null-fills), and no row with
`node_id = root_id`.  The "first match" reading of the claim fails:
the merge is a cross product (`c8_multilabel_counterexample`). -/
theorem c8_rootmapping_table (ntr : List (Int × Int)) (parsed : List Row) :
    (create_node_root_mapping ntr parsed).length =
      ((ntr.filter (fun p => decide (p.1 ≠ p.2))).map
        (fun p => max 1 (node_label_matches parsed p.1) *
          max 1 (root_label_matches parsed p.2))).sum ∧
    (∀ row ∈ create_node_root_mapping ntr parsed,
      alookup row "node_id" ≠ alookup row "root_id") := by
  constructor
  · rw [create_node_root_mapping]
    simp only [List.length_map]
    rw [leftMergeOn, List.length_flatMap]
    rw [show (List.map (List.length ∘ mergeRows "root_id"
        ["root_label", "root_all_labels"] (root_labels_of parsed))
        (leftMergeOn "node_id" ["node_label", "node_all_labels"]
          ((ntr.filter (fun p => decide (p.1 ≠ p.2))).map mapping_pair_row)
          (node_labels_of parsed))) =
      (List.map (fun row => (mergeRows "root_id" ["root_label", "root_all_labels"]
        (root_labels_of parsed) row).length)
        (leftMergeOn "node_id" ["node_label", "node_all_labels"]
          ((ntr.filter (fun p => decide (p.1 ≠ p.2))).map mapping_pair_row)
          (node_labels_of parsed))) from rfl]
    rw [leftMergeOn, List.flatMap_map, sum_map_flatMap]
    refine congrArg List.sum (List.map_congr_left ?_)
    intro p hp
    have hblock : ∀ row ∈ mergeRows "node_id" ["node_label", "node_all_labels"]
        (node_labels_of parsed) (mapping_pair_row p),
        (mergeRows "root_id" ["root_label", "root_all_labels"]
          (root_labels_of parsed) row).length =
        max 1 (root_label_matches parsed p.2) := by
      intro row hrow
      have hr : alookup row "root_id" = some (Json.num p.2) :=
        mem_mergeRows_lookup "root_id" (Json.num p.2) hrow (mapping_pair_row_root_id p)
      rw [mergeRows_length]
      simp only [hr]
      rfl
    rw [sum_map_const _ _ _ hblock, mergeRows_length]
    simp only [mapping_pair_row_node_id]
    rfl
  · intro row' hrow'
    rcases List.mem_map.mp hrow' with ⟨row, hrow, he⟩
    rcases List.mem_flatMap.mp hrow with ⟨lr, hlr, hrow2⟩
    rw [leftMergeOn, List.flatMap_map] at hlr
    rcases List.mem_flatMap.mp hlr with ⟨p, hpF, hlr2⟩
    have hn : alookup row "node_id" = some (Json.num p.1) :=
      mem_mergeRows_lookup "node_id" (Json.num p.1) hrow2
        (mem_mergeRows_lookup "node_id" (Json.num p.1) hlr2
          (mapping_pair_row_node_id p))
    have hr : alookup row "root_id" = some (Json.num p.2) :=
      mem_mergeRows_lookup "root_id" (Json.num p.2) hrow2
        (mem_mergeRows_lookup "root_id" (Json.num p.2) hlr2
          (mapping_pair_row_root_id p))
    have hne : p.1 ≠ p.2 := by
      have := (List.mem_filter.mp hpF).2
      exact of_decide_eq_true this
    have e1 : alookup row' "node_id" = some ((alookup row "node_id").getD Json.null) := by
      rw [← he]
      rfl
    have e2 : alookup row' "root_id" = some ((alookup row "root_id").getD Json.null) := by
      rw [← he]
      rfl
    rw [e1, e2, hn, hr]
    intro hc
    simp only [Option.getD_some, Option.some.injEq, Json.num.injEq] at hc
    exact hne hc

/-! ## Claim C6: round-trip of rendered property mappings -/

/-- Modelled from the spec for the round-trip comparison: render a mapping as
the relaxed `key: value` blob of the input schema (unquoted keys, unquoted
scalar values, pairs joined by a comma and blank, braces around the whole). -/
def renderScalar : Json → String
  | Json.str s => s
  | Json.num n => toString n
  | Json.bool true => "true"
  | Json.bool false => "false"
  | Json.null => "null"
  | _ => ""

/-- The pair list of the relaxed blob: `k: v` joined by `, `. -/
def renderBody : List (String × Json) → List Char
  | [] => []
  | [p] => p.1.data ++ ':' :: ' ' :: (renderScalar p.2).data
  | p :: q :: t =>
    p.1.data ++ ':' :: ' ' :: (renderScalar p.2).data ++ ',' :: ' ' :: renderBody (q :: t)

/-- Modelled from the spec: the relaxed property blob for a mapping, e.g.
`\x7bname: foo, active: true\x7d`. -/
def render_properties (m : List (String × Json)) : String :=
  String.mk ('\x7b' :: renderBody m ++ ['\x7d'])

/-- A key the relaxed syntax round-trips: nonempty, word characters only. -/
def goodKey (k : String) : Bool :=
  !k.data.isEmpty && k.data.all isWordChar

/-- A value the relaxed syntax round-trips exactly: a nonempty word-character
string other than the literal tokens, a boolean, or null.  (Numbers are
excluded: the value-quoting pass turns them into strings,
`c6_number_counterexample`.) -/
def goodVal : Json → Bool
  | Json.str s =>
    !s.data.isEmpty && s.data.all isWordChar &&
      !(s == "true") && !(s == "false") && !(s == "null")
  | Json.bool _ => true
  | Json.null => true
  | _ => false

theorem wordChar_ne (c d : Char) (h : isWordChar c = true)
    (hd : isWordChar d = false) : c ≠ d := by
  intro hc
  rw [hc, hd] at h
  exact Bool.false_ne_true h

theorem wordChar_not_space (c : Char) (h : isWordChar c = true) :
    pyIsSpace c = false := by
  cases hs : pyIsSpace c with
  | false => rfl
  | true =>
    simp only [pyIsSpace, Bool.or_eq_true, beq_iff_eq] at hs
    rcases hs with ((((h' | h') | h') | h') | h') | h' <;>
      exact absurd (h' ▸ h) (by decide)

theorem wordChar_inClassC (c : Char) (h : isWordChar c = true) :
    inClassC c = true := by
  cases hs : inClassC c with
  | true => rfl
  | false =>
    simp only [inClassC, Bool.not_eq_false', Bool.or_eq_true, beq_iff_eq] at hs
    rcases hs with ((((h' | h') | h') | h') | h') | h' <;>
      exact absurd (h' ▸ h) (by decide)

theorem wordChar_not_ctrl (c : Char) (h : isWordChar c = true) :
    ¬ c.toNat < 32 := by
  simp only [isWordChar, Bool.or_eq_true, Bool.and_eq_true, decide_eq_true_eq,
    beq_iff_eq] at h
  omega

/-- Value renderer for the stage between key quoting and value quoting:
values still unquoted. -/
def fvPlain (v : Json) : List Char := (renderScalar v).data

/-- Value renderer after the value-quoting pass. -/
def fvQuoted (v : Json) : List Char := '"' :: (renderScalar v).data ++ ['"']

/-- Value renderer after `': "true"' -> ': true'`. -/
def fvT (v : Json) : List Char :=
  match v with
  | Json.bool true => ['t', 'r', 'u', 'e']
  | _ => fvQuoted v

/-- Value renderer after the `false` replacement as well. -/
def fvTF (v : Json) : List Char :=
  match v with
  | Json.bool true => ['t', 'r', 'u', 'e']
  | Json.bool false => ['f', 'a', 'l', 's', 'e']
  | _ => fvQuoted v

/-- Value renderer after all the literal replacements: what `json.loads`
finally sees. -/
def valFinal (v : Json) : List Char :=
  match v with
  | Json.bool true => ['t', 'r', 'u', 'e']
  | Json.bool false => ['f', 'a', 'l', 's', 'e']
  | Json.null => ['n', 'u', 'l', 'l']
  | _ => fvQuoted v

/-- The normalized pair list with quoted keys and values rendered by `fv`. -/
def bodyWith (fv : Json → List Char) : List (String × Json) → List Char
  | [] => []
  | [p] => '"' :: p.1.data ++ '"' :: ':' :: ' ' :: fv p.2
  | p :: q :: t =>
    '"' :: p.1.data ++ '"' :: ':' :: ' ' :: fv p.2 ++ ',' :: ' ' :: bodyWith fv (q :: t)

theorem goodKey_chars (k : String) (h : goodKey k = true) :
    k.data ≠ [] ∧ ∀ c ∈ k.data, isWordChar c = true := by
  simp only [goodKey, Bool.and_eq_true, Bool.not_eq_true', List.isEmpty_eq_false,
    List.all_eq_true] at h
  exact h

theorem goodVal_chars (v : Json) (h : goodVal v = true) :
    (renderScalar v).data ≠ [] ∧ ∀ c ∈ (renderScalar v).data, isWordChar c = true := by
  match v with
  | Json.str s =>
    simp only [goodVal, Bool.and_eq_true, Bool.not_eq_true', List.isEmpty_eq_false,
      List.all_eq_true] at h
    exact ⟨h.1.1.1.1, h.1.1.1.2⟩
  | Json.bool true => exact ⟨by decide, by decide⟩
  | Json.bool false => exact ⟨by decide, by decide⟩
  | Json.null => exact ⟨by decide, by decide⟩
  | Json.num n => exact absurd h (by simp [goodVal])
  | Json.arr xs => exact absurd h (by simp [goodVal])
  | Json.obj ps => exact absurd h (by simp [goodVal])

theorem sub1Go_word_run (k : List Char) : ∀ (acc rest : List Char),
    (∀ c ∈ k, isWordChar c = true) →
    sub1Go acc (k ++ rest) = sub1Go (k.reverse ++ acc) rest := by
  induction k with
  | nil => intro acc rest _; simp
  | cons c k' ih =>
    intro acc rest h
    have hc : isWordChar c = true := h c (List.mem_cons_self _ _)
    rw [List.cons_append]
    rw [show sub1Go acc (c :: (k' ++ rest)) = sub1Go (c :: acc) (k' ++ rest) from by
      simp only [sub1Go, hc, if_true]]
    rw [ih (c :: acc) rest (fun x hx => h x (List.mem_cons_of_mem _ hx))]
    rw [List.reverse_cons, List.append_assoc, List.singleton_append]

theorem sub1Go_flush (run : List Char) (c : Char) (t : List Char)
    (hw : isWordChar c = false) (hc : c ≠ ':') :
    sub1Go run (c :: t) = run.reverse ++ c :: sub1Go [] t := by
  simp only [sub1Go, hw, Bool.false_eq_true, if_false, if_neg hc]

theorem sub1Go_quote (run : List Char) (t : List Char) (hne : run ≠ []) :
    sub1Go run (':' :: t) = '"' :: (run.reverse ++ '"' :: ':' :: sub1Go [] t) := by
  have hemp : run.isEmpty = false := List.isEmpty_eq_false.mpr hne
  simp only [sub1Go, show isWordChar ':' = false from by decide, Bool.false_eq_true,
    if_false, if_pos rfl, hemp, ite_true, ite_false]

theorem sub1_rendered_body (m : List (String × Json)) :
    (∀ p ∈ m, goodKey p.1 = true ∧ goodVal p.2 = true) →
    sub1Go [] (renderBody m ++ ['\x7d']) = bodyWith fvPlain m ++ ['\x7d'] := by
  induction m with
  | nil =>
    intro _
    rw [show renderBody [] = [] from rfl, List.nil_append,
      sub1Go_flush [] '\x7d' [] (by decide) (by decide)]
    rfl
  | cons p t ih =>
    intro h
    obtain ⟨hk, hkw⟩ := goodKey_chars p.1 (h p (List.mem_cons_self _ _)).1
    obtain ⟨hv, hvw⟩ := goodVal_chars p.2 (h p (List.mem_cons_self _ _)).2
    have hkrev : p.1.data.reverse ≠ [] := fun hr => hk (List.reverse_eq_nil_iff.mp hr)
    cases t with
    | nil =>
      have e1 : renderBody [p] ++ ['\x7d'] =
          p.1.data ++ (':' :: ' ' :: ((renderScalar p.2).data ++ ['\x7d'])) := by
        simp [renderBody, List.append_assoc]
      rw [e1, sub1Go_word_run _ _ _ hkw, List.append_nil, sub1Go_quote _ _ hkrev,
        List.reverse_reverse, sub1Go_flush [] ' ' _ (by decide) (by decide),
        sub1Go_word_run _ _ _ hvw, List.append_nil,
        sub1Go_flush _ '\x7d' [] (by decide) (by decide), List.reverse_reverse]
      rw [show sub1Go [] [] = [] from rfl]
      simp [bodyWith, fvPlain]
    | cons q t' =>
      have e2 : renderBody (p :: q :: t') ++ ['\x7d'] =
          p.1.data ++ (':' :: ' ' :: ((renderScalar p.2).data ++
            (',' :: ' ' :: (renderBody (q :: t') ++ ['\x7d'])))) := by
        simp [renderBody, List.append_assoc]
      rw [e2, sub1Go_word_run _ _ _ hkw, List.append_nil, sub1Go_quote _ _ hkrev,
        List.reverse_reverse, sub1Go_flush [] ' ' _ (by decide) (by decide),
        sub1Go_word_run _ _ _ hvw, List.append_nil,
        sub1Go_flush _ ',' _ (by decide) (by decide), List.reverse_reverse,
        sub1Go_flush [] ' ' _ (by decide) (by decide),
        ih (fun x hx => h x (List.mem_cons_of_mem _ hx))]
      simp [bodyWith, fvPlain]

theorem sub2Go_skip (s : List Char) : ∀ (rest : List Char), (∀ c ∈ s, c ≠ ':') →
    sub2Go none (s ++ rest) = s ++ sub2Go none rest := by
  induction s with
  | nil => intro rest _; rfl
  | cons c s' ih =>
    intro rest h
    rw [List.cons_append,
      show sub2Go none (c :: (s' ++ rest)) = c :: sub2Go none (s' ++ rest) from by
        simp only [sub2Go, if_neg (h c (List.mem_cons_self _ _))],
      ih rest (fun x hx => h x (List.mem_cons_of_mem _ hx)), List.cons_append]

theorem sub2Go_colon (t : List Char) : sub2Go none (':' :: t) = sub2Go (some []) t := by
  simp [sub2Go]

theorem sub2Go_collect (v : List Char) : ∀ (acc rest : List Char),
    (∀ c ∈ v, inClassC c = true) →
    sub2Go (some acc) (v ++ rest) = sub2Go (some (v.reverse ++ acc)) rest := by
  induction v with
  | nil => intro acc rest _; simp
  | cons c v' ih =>
    intro acc rest h
    have hc : inClassC c = true := h c (List.mem_cons_self _ _)
    have hnc : ¬ (c = ',' ∨ c = '\x7d') := by
      rintro (h' | h') <;> exact absurd (h' ▸ hc) (by decide)
    rw [List.cons_append,
      show sub2Go (some acc) (c :: (v' ++ rest)) =
        sub2Go (some (c :: acc)) (v' ++ rest) from by
        simp only [sub2Go, if_neg hnc, hc, ite_true],
      ih (c :: acc) rest (fun x hx => h x (List.mem_cons_of_mem _ hx)),
      List.reverse_cons, List.append_assoc, List.singleton_append]

theorem sub2Go_match (acc : List Char) (d : Char) (t : List Char)
    (hd : d = ',' ∨ d = '\x7d') (hne : acc ≠ []) :
    sub2Go (some acc) (d :: t) =
      ':' :: ' ' :: '"' :: (pyStrip acc.reverse ++ '"' :: d :: sub2Go none t) := by
  simp only [sub2Go, if_pos hd, List.isEmpty_eq_false.mpr hne, Bool.false_eq_true,
    if_false, ite_false]

theorem pyStrip_space_word (v : List Char) (hne : v ≠ [])
    (hw : ∀ c ∈ v, isWordChar c = true) : pyStrip (' ' :: v) = v := by
  have h1 : (' ' :: v).dropWhile pyIsSpace = v.dropWhile pyIsSpace := by
    rw [List.dropWhile_cons_of_pos (by decide)]
  have h2 : v.dropWhile pyIsSpace = v := by
    cases v with
    | nil => rfl
    | cons c v' =>
      rw [List.dropWhile_cons_of_neg]
      rw [wordChar_not_space c (hw c (List.mem_cons_self _ _))]
      exact Bool.false_ne_true
  have h3 : v.reverse.dropWhile pyIsSpace = v.reverse := by
    cases hrev : v.reverse with
    | nil => rfl
    | cons c r' =>
      rw [List.dropWhile_cons_of_neg]
      have hc : c ∈ v := List.mem_reverse.mp (hrev ▸ List.mem_cons_self c r')
      rw [wordChar_not_space c (hw c hc)]
      exact Bool.false_ne_true
  rw [pyStrip, h1, h2, h3, List.reverse_reverse]

theorem sub2_body (m : List (String × Json)) :
    (∀ p ∈ m, goodKey p.1 = true ∧ goodVal p.2 = true) →
    sub2Go none (bodyWith fvPlain m ++ ['\x7d']) = bodyWith fvQuoted m ++ ['\x7d'] := by
  induction m with
  | nil =>
    intro _
    rw [show bodyWith fvPlain [] = [] from rfl, List.nil_append,
      show sub2Go none ['\x7d'] = '\x7d' :: sub2Go none [] from by
        simp only [sub2Go, if_neg (show ('\x7d' : Char) ≠ ':' from by decide)]]
    rfl
  | cons p t ih =>
    intro h
    obtain ⟨hk, hkw⟩ := goodKey_chars p.1 (h p (List.mem_cons_self _ _)).1
    obtain ⟨hv, hvw⟩ := goodVal_chars p.2 (h p (List.mem_cons_self _ _)).2
    have hno : ∀ c ∈ '"' :: p.1.data ++ ['"'], c ≠ ':' := by
      intro c hc
      rcases List.mem_cons.mp hc with h' | h'
      · exact h' ▸ (by decide)
      · rcases List.mem_append.mp h' with h'' | h''
        · exact wordChar_ne c ':' (hkw c h'') (by decide)
        · rw [List.mem_singleton.mp h'']; decide
    have hC : ∀ c ∈ ' ' :: (renderScalar p.2).data, inClassC c = true := by
      intro c hc
      rcases List.mem_cons.mp hc with h' | h'
      · rw [h']; decide
      · exact wordChar_inClassC c (hvw c h')
    have hacc : (renderScalar p.2).data.reverse ++ [' '] ≠ [] := by simp
    have hrevrev : ((renderScalar p.2).data.reverse ++ [' ']).reverse =
        ' ' :: (renderScalar p.2).data := by
      rw [List.reverse_append, List.reverse_reverse]
      rfl
    cases t with
    | nil =>
      have e1 : bodyWith fvPlain [p] ++ ['\x7d'] =
          ('"' :: p.1.data ++ ['"']) ++
            (':' :: ((' ' :: (renderScalar p.2).data) ++ ['\x7d'])) := by
        simp [bodyWith, fvPlain, List.append_assoc]
      rw [e1, sub2Go_skip _ _ hno, sub2Go_colon, sub2Go_collect _ _ _ hC,
        List.append_nil, List.reverse_cons,
        sub2Go_match _ '\x7d' [] (Or.inr rfl) hacc, hrevrev,
        pyStrip_space_word _ hv hvw]
      rw [show sub2Go none [] = [] from rfl]
      simp [bodyWith, fvQuoted, List.append_assoc]
    | cons q t' =>
      have e2 : bodyWith fvPlain (p :: q :: t') ++ ['\x7d'] =
          ('"' :: p.1.data ++ ['"']) ++
            (':' :: ((' ' :: (renderScalar p.2).data) ++
              (',' :: (([' ']) ++ (bodyWith fvPlain (q :: t') ++ ['\x7d']))))) := by
        simp [bodyWith, fvPlain, List.append_assoc]
      rw [e2, sub2Go_skip _ _ hno, sub2Go_colon, sub2Go_collect _ _ _ hC,
        List.append_nil, List.reverse_cons,
        sub2Go_match _ ',' _ (Or.inl rfl) hacc, hrevrev,
        pyStrip_space_word _ hv hvw,
        sub2Go_skip [' '] _ (by intro c hc; rw [List.mem_singleton.mp hc]; decide),
        ih (fun x hx => h x (List.mem_cons_of_mem _ hx))]
      simp [bodyWith, fvQuoted, List.append_assoc]

theorem replTokGo_nil (pat repl : List Char) (n : Nat) :
    replTokGo pat repl n [] = [] := by
  cases n <;> rfl

theorem replTokGo_skip_char (pat repl patc : List Char) (hpat : pat = ':' :: patc)
    (c : Char) (t : List Char) (hc : c ≠ ':') :
    replTokGo pat repl 0 (c :: t) = c :: replTokGo pat repl 0 t := by
  have hnp : pat.isPrefixOf (c :: t) = false := by
    rw [hpat]
    simp only [List.isPrefixOf, Bool.and_eq_false_iff]
    exact Or.inl (beq_eq_false_iff_ne.mpr (fun h => hc h.symm))
  simp only [replTokGo, hnp, Bool.false_eq_true, if_false]

theorem replTokGo_skip_many (pat repl patc : List Char) (hpat : pat = ':' :: patc)
    (s : List Char) (h : ∀ c ∈ s, c ≠ ':') : ∀ (rest : List Char),
    replTokGo pat repl 0 (s ++ rest) = s ++ replTokGo pat repl 0 rest := by
  induction s with
  | nil => intro rest; rfl
  | cons c s' ih =>
    intro rest
    rw [List.cons_append,
      replTokGo_skip_char pat repl patc hpat c _ (h c (List.mem_cons_self _ _)),
      ih (fun x hx => h x (List.mem_cons_of_mem _ hx)) rest, List.cons_append]

theorem replTokGo_skip_n (pat repl : List Char) (xs : List Char) :
    ∀ (rest : List Char), replTokGo pat repl xs.length (xs ++ rest) =
      replTokGo pat repl 0 rest := by
  induction xs with
  | nil => intro rest; rfl
  | cons c xs' ih =>
    intro rest
    rw [List.length_cons, List.cons_append,
      show replTokGo pat repl (xs'.length + 1) (c :: (xs' ++ rest)) =
        replTokGo pat repl xs'.length (xs' ++ rest) from rfl, ih rest]

theorem replTokGo_match (pat repl : List Char) (c : Char) (patc : List Char)
    (hpat : pat = c :: patc) (rest : List Char) :
    replTokGo pat repl 0 (pat ++ rest) = repl ++ replTokGo pat repl 0 rest := by
  have hpre : pat.isPrefixOf (pat ++ rest) = true :=
    List.isPrefixOf_iff_prefix.mpr (List.prefix_append _ _)
  rw [hpat] at hpre ⊢
  rw [List.cons_append]
  rw [show replTokGo (c :: patc) repl 0 (c :: (patc ++ rest)) =
    if (c :: patc).isPrefixOf (c :: (patc ++ rest)) then
      repl ++ replTokGo (c :: patc) repl ((c :: patc).length - 1) (patc ++ rest)
    else c :: replTokGo (c :: patc) repl 0 (patc ++ rest) from rfl]
  rw [List.cons_append] at hpre
  rw [if_pos hpre, List.length_cons, Nat.add_sub_cancel, replTokGo_skip_n]

/-- Two quote-free segments closed by a quote determine each other. -/
theorem append_quote_inj (a : List Char) : ∀ (b x y : List Char),
    (∀ c ∈ a, c ≠ '"') → (∀ c ∈ b, c ≠ '"') →
    a ++ '"' :: x = b ++ '"' :: y → a = b ∧ x = y := by
  induction a with
  | nil =>
    intro b x y _ hb h
    cases b with
    | nil =>
      rw [List.nil_append, List.nil_append] at h
      injection h with _ h2
      exact ⟨rfl, h2⟩
    | cons d b' =>
      rw [List.nil_append, List.cons_append] at h
      injection h with h1 _
      exact absurd h1.symm (hb d (List.mem_cons_self _ _))
  | cons c a' ih =>
    intro b x y ha hb h
    cases b with
    | nil =>
      rw [List.cons_append, List.nil_append] at h
      injection h with h1 _
      exact absurd h1 (ha c (List.mem_cons_self _ _))
    | cons d b' =>
      rw [List.cons_append, List.cons_append] at h
      injection h with h1 h2
      obtain ⟨he, hxy⟩ := ih b' x y (fun z hz => ha z (List.mem_cons_of_mem _ hz))
        (fun z hz => hb z (List.mem_cons_of_mem _ hz)) h2
      exact ⟨by rw [h1, he], hxy⟩

theorem wordChar_ne_quote (w : List Char) (hw : ∀ c ∈ w, isWordChar c = true) :
    ∀ c ∈ w, c ≠ '"' :=
  fun c hc => wordChar_ne c '"' (hw c hc) (by decide)

theorem replTok_skip_quoted (pat repl tok : List Char)
    (hpat : pat = ':' :: ' ' :: '"' :: (tok ++ ['"'])) (htok : ∀ c ∈ tok, c ≠ '"')
    (w : List Char) (hw : ∀ c ∈ w, isWordChar c = true) (hne : w ≠ tok)
    (rest : List Char) :
    replTokGo pat repl 0 (':' :: ' ' :: (('"' :: w ++ ['"']) ++ rest)) =
      ':' :: ' ' :: (('"' :: w ++ ['"']) ++ replTokGo pat repl 0 rest) := by
  have hsh : ('"' :: w ++ ['"']) ++ rest = '"' :: (w ++ '"' :: rest) := by
    simp [List.append_assoc]
  have hnp : pat.isPrefixOf (':' :: ' ' :: '"' :: (w ++ '"' :: rest)) = false := by
    cases hp : pat.isPrefixOf (':' :: ' ' :: '"' :: (w ++ '"' :: rest)) with
    | false => rfl
    | true =>
      exfalso
      obtain ⟨u, hu⟩ := List.isPrefixOf_iff_prefix.mp hp
      rw [hpat] at hu
      rw [List.cons_append, List.cons_append, List.cons_append,
        List.append_assoc] at hu
      injection hu with _ hu
      injection hu with _ hu
      injection hu with _ hu
      exact hne (append_quote_inj tok _ _ _ htok (wordChar_ne_quote w hw) hu).1.symm
  rw [hsh]
  rw [show replTokGo pat repl 0 (':' :: ' ' :: '"' :: (w ++ '"' :: rest)) =
    if pat.isPrefixOf (':' :: ' ' :: '"' :: (w ++ '"' :: rest)) then
      repl ++ replTokGo pat repl (pat.length - 1) (' ' :: '"' :: (w ++ '"' :: rest))
    else ':' :: replTokGo pat repl 0 (' ' :: '"' :: (w ++ '"' :: rest)) from rfl]
  rw [hnp]
  simp only [Bool.false_eq_true, if_false]
  rw [replTokGo_skip_char pat repl _ hpat ' ' _ (by decide),
    replTokGo_skip_char pat repl _ hpat '"' _ (by decide),
    replTokGo_skip_many pat repl _ hpat w
      (fun c hc => wordChar_ne c ':' (hw c hc) (by decide)),
    replTokGo_skip_char pat repl _ hpat '"' _ (by decide)]
  simp [List.append_assoc]

theorem replTok_match_quoted (pat repl tok : List Char)
    (hpat : pat = ':' :: ' ' :: '"' :: (tok ++ ['"'])) (rest : List Char) :
    replTokGo pat repl 0 (':' :: ' ' :: (('"' :: tok ++ ['"']) ++ rest)) =
      repl ++ replTokGo pat repl 0 rest := by
  have hsh : ':' :: ' ' :: (('"' :: tok ++ ['"']) ++ rest) = pat ++ rest := by
    rw [hpat]
    simp [List.append_assoc]
  rw [hsh, replTokGo_match pat repl ':' (' ' :: '"' :: (tok ++ ['"'])) hpat rest]

theorem replTok_skip_unquoted (pat repl patc : List Char)
    (hpat : pat = ':' :: ' ' :: '"' :: patc)
    (w : List Char) (hw : ∀ c ∈ w, isWordChar c = true) (hwne : w ≠ [])
    (rest : List Char) :
    replTokGo pat repl 0 (':' :: ' ' :: (w ++ rest)) =
      ':' :: ' ' :: (w ++ replTokGo pat repl 0 rest) := by
  have hnp : pat.isPrefixOf (':' :: ' ' :: (w ++ rest)) = false := by
    cases hp : pat.isPrefixOf (':' :: ' ' :: (w ++ rest)) with
    | false => rfl
    | true =>
      exfalso
      obtain ⟨u, hu⟩ := List.isPrefixOf_iff_prefix.mp hp
      rw [hpat, List.cons_append, List.cons_append, List.cons_append] at hu
      injection hu with _ hu
      injection hu with _ hu
      cases w with
      | nil => exact hwne rfl
      | cons c w' =>
        rw [List.cons_append] at hu
        injection hu with h1 _
        exact wordChar_ne c '"' (hw c (List.mem_cons_self _ _)) (by decide) h1.symm
  rw [show replTokGo pat repl 0 (':' :: ' ' :: (w ++ rest)) =
    if pat.isPrefixOf (':' :: ' ' :: (w ++ rest)) then
      repl ++ replTokGo pat repl (pat.length - 1) (' ' :: (w ++ rest))
    else ':' :: replTokGo pat repl 0 (' ' :: (w ++ rest)) from rfl]
  rw [hnp]
  simp only [Bool.false_eq_true, if_false]
  rw [replTokGo_skip_char pat repl _ hpat ' ' _ (by decide),
    replTokGo_skip_many pat repl _ hpat w
      (fun c hc => wordChar_ne c ':' (hw c hc) (by decide))]

theorem replTok_pass_body (pat repl patc0 : List Char) (hpat : pat = ':' :: patc0)
    (f g : Json → List Char)
    (hstep : ∀ v, goodVal v = true → ∀ (rest : List Char),
      replTokGo pat repl 0 (':' :: ' ' :: (f v ++ rest)) =
        ':' :: ' ' :: (g v ++ replTokGo pat repl 0 rest)) :
    ∀ (m : List (String × Json)),
      (∀ p ∈ m, goodKey p.1 = true ∧ goodVal p.2 = true) →
      replTokGo pat repl 0 (bodyWith f m ++ ['\x7d']) = bodyWith g m ++ ['\x7d'] := by
  intro m
  induction m with
  | nil =>
    intro _
    rw [show bodyWith f [] = [] from rfl, List.nil_append,
      replTokGo_skip_char pat repl patc0 hpat '\x7d' [] (by decide), replTokGo_nil]
    rfl
  | cons p t ih =>
    intro h
    obtain ⟨hk, hkw⟩ := goodKey_chars p.1 (h p (List.mem_cons_self _ _)).1
    have hno : ∀ c ∈ '"' :: p.1.data ++ ['"'], c ≠ ':' := by
      intro c hc
      rcases List.mem_cons.mp hc with h' | h'
      · exact h' ▸ (by decide)
      · rcases List.mem_append.mp h' with h'' | h''
        · exact wordChar_ne c ':' (hkw c h'') (by decide)
        · rw [List.mem_singleton.mp h'']; decide
    cases t with
    | nil =>
      have e1 : bodyWith f [p] ++ ['\x7d'] =
          ('"' :: p.1.data ++ ['"']) ++ (':' :: ' ' :: (f p.2 ++ ['\x7d'])) := by
        simp [bodyWith, List.append_assoc]
      rw [e1, replTokGo_skip_many pat repl patc0 hpat _ hno,
        hstep p.2 (h p (List.mem_cons_self _ _)).2 ['\x7d'],
        replTokGo_skip_char pat repl patc0 hpat '\x7d' [] (by decide), replTokGo_nil]
      simp [bodyWith, List.append_assoc]
    | cons q t' =>
      have e2 : bodyWith f (p :: q :: t') ++ ['\x7d'] =
          ('"' :: p.1.data ++ ['"']) ++
            (':' :: ' ' :: (f p.2 ++ (',' :: ' ' :: (bodyWith f (q :: t') ++ ['\x7d'])))) := by
        simp [bodyWith, List.append_assoc]
      rw [e2, replTokGo_skip_many pat repl patc0 hpat _ hno,
        hstep p.2 (h p (List.mem_cons_self _ _)).2 _,
        replTokGo_skip_char pat repl patc0 hpat ',' _ (by decide),
        replTokGo_skip_char pat repl patc0 hpat ' ' _ (by decide),
        ih (fun x hx => h x (List.mem_cons_of_mem _ hx))]
      simp [bodyWith, List.append_assoc]

theorem string_data_inj {s t : String} (h : s.data = t.data) : s = t := by
  cases s
  cases t
  exact congrArg String.mk h

theorem goodVal_str_parts (s : String) (h : goodVal (Json.str s) = true) :
    s.data ≠ [] ∧ (∀ c ∈ s.data, isWordChar c = true) ∧
      s.data ≠ ("true" : String).data ∧ s.data ≠ ("false" : String).data ∧
      s.data ≠ ("null" : String).data := by
  simp only [goodVal, Bool.and_eq_true, Bool.not_eq_true', List.isEmpty_eq_false,
    List.all_eq_true, beq_eq_false_iff_ne] at h
  exact ⟨h.1.1.1.1, h.1.1.1.2,
    fun hd => h.1.1.2 (string_data_inj hd),
    fun hd => h.1.2 (string_data_inj hd),
    fun hd => h.2 (string_data_inj hd)⟩

theorem pass_true_step (v : Json) (hv : goodVal v = true) (rest : List Char) :
    replTokGo (": \"true\"").data (": true").data 0
        (':' :: ' ' :: (fvQuoted v ++ rest)) =
      ':' :: ' ' :: (fvT v ++ replTokGo (": \"true\"").data (": true").data 0 rest) := by
  match v with
  | Json.str s =>
    obtain ⟨hne, hw, hneT, _, _⟩ := goodVal_str_parts s hv
    rw [show fvQuoted (Json.str s) = '"' :: s.data ++ ['"'] from rfl,
      show fvT (Json.str s) = '"' :: s.data ++ ['"'] from rfl]
    exact replTok_skip_quoted _ _ ("true").data (by decide) (by decide) s.data hw hneT rest
  | Json.bool true =>
    rw [show fvQuoted (Json.bool true) = '"' :: ("true").data ++ ['"'] from rfl,
      replTok_match_quoted _ _ ("true").data (by decide) rest]
    rfl
  | Json.bool false =>
    rw [show fvQuoted (Json.bool false) = '"' :: ("false").data ++ ['"'] from rfl,
      show fvT (Json.bool false) = '"' :: ("false").data ++ ['"'] from rfl]
    exact replTok_skip_quoted _ _ ("true").data (by decide) (by decide) ("false").data
      (by decide) (by decide) rest
  | Json.null =>
    rw [show fvQuoted Json.null = '"' :: ("null").data ++ ['"'] from rfl,
      show fvT Json.null = '"' :: ("null").data ++ ['"'] from rfl]
    exact replTok_skip_quoted _ _ ("true").data (by decide) (by decide) ("null").data
      (by decide) (by decide) rest
  | Json.num n => exact absurd hv (by simp [goodVal])
  | Json.arr xs => exact absurd hv (by simp [goodVal])
  | Json.obj ps => exact absurd hv (by simp [goodVal])

theorem pass_false_step (v : Json) (hv : goodVal v = true) (rest : List Char) :
    replTokGo (": \"false\"").data (": false").data 0
        (':' :: ' ' :: (fvT v ++ rest)) =
      ':' :: ' ' :: (fvTF v ++ replTokGo (": \"false\"").data (": false").data 0 rest) := by
  match v with
  | Json.str s =>
    obtain ⟨hne, hw, _, hneF, _⟩ := goodVal_str_parts s hv
    rw [show fvT (Json.str s) = '"' :: s.data ++ ['"'] from rfl,
      show fvTF (Json.str s) = '"' :: s.data ++ ['"'] from rfl]
    exact replTok_skip_quoted _ _ ("false").data (by decide) (by decide) s.data hw hneF rest
  | Json.bool true =>
    rw [show fvT (Json.bool true) = ['t', 'r', 'u', 'e'] from rfl,
      show fvTF (Json.bool true) = ['t', 'r', 'u', 'e'] from rfl]
    exact replTok_skip_unquoted _ _ ['f', 'a', 'l', 's', 'e', '"'] (by decide) ['t', 'r', 'u', 'e'] (by decide)
      (by decide) rest
  | Json.bool false =>
    rw [show fvT (Json.bool false) = '"' :: ("false").data ++ ['"'] from rfl,
      replTok_match_quoted _ _ ("false").data (by decide) rest]
    rfl
  | Json.null =>
    rw [show fvT Json.null = '"' :: ("null").data ++ ['"'] from rfl,
      show fvTF Json.null = '"' :: ("null").data ++ ['"'] from rfl]
    exact replTok_skip_quoted _ _ ("false").data (by decide) (by decide) ("null").data
      (by decide) (by decide) rest
  | Json.num n => exact absurd hv (by simp [goodVal])
  | Json.arr xs => exact absurd hv (by simp [goodVal])
  | Json.obj ps => exact absurd hv (by simp [goodVal])

theorem pass_null_step (v : Json) (hv : goodVal v = true) (rest : List Char) :
    replTokGo (": \"null\"").data (": null").data 0
        (':' :: ' ' :: (fvTF v ++ rest)) =
      ':' :: ' ' :: (valFinal v ++ replTokGo (": \"null\"").data (": null").data 0 rest) := by
  match v with
  | Json.str s =>
    obtain ⟨hne, hw, _, _, hneN⟩ := goodVal_str_parts s hv
    rw [show fvTF (Json.str s) = '"' :: s.data ++ ['"'] from rfl,
      show valFinal (Json.str s) = '"' :: s.data ++ ['"'] from rfl]
    exact replTok_skip_quoted _ _ ("null").data (by decide) (by decide) s.data hw hneN rest
  | Json.bool true =>
    exact replTok_skip_unquoted _ _ ['n', 'u', 'l', 'l', '"'] (by decide) ['t', 'r', 'u', 'e'] (by decide)
      (by decide) rest
  | Json.bool false =>
    exact replTok_skip_unquoted _ _ ['n', 'u', 'l', 'l', '"'] (by decide) ['f', 'a', 'l', 's', 'e'] (by decide)
      (by decide) rest
  | Json.null =>
    rw [show fvTF Json.null = '"' :: ("null").data ++ ['"'] from rfl,
      replTok_match_quoted _ _ ("null").data (by decide) rest]
    rfl
  | Json.num n => exact absurd hv (by simp [goodVal])
  | Json.arr xs => exact absurd hv (by simp [goodVal])
  | Json.obj ps => exact absurd hv (by simp [goodVal])

theorem pass_empty_step (v : Json) (hv : goodVal v = true) (rest : List Char) :
    replTokGo (": \"\"").data (": null").data 0
        (':' :: ' ' :: (valFinal v ++ rest)) =
      ':' :: ' ' :: (valFinal v ++ replTokGo (": \"\"").data (": null").data 0 rest) := by
  match v with
  | Json.str s =>
    obtain ⟨hne, hw, _, _, _⟩ := goodVal_str_parts s hv
    rw [show valFinal (Json.str s) = '"' :: s.data ++ ['"'] from rfl]
    exact replTok_skip_quoted _ _ [] (by decide) (by simp) s.data hw hne rest
  | Json.bool true =>
    exact replTok_skip_unquoted _ _ ['"'] (by decide) ['t', 'r', 'u', 'e'] (by decide)
      (by decide) rest
  | Json.bool false =>
    exact replTok_skip_unquoted _ _ ['"'] (by decide) ['f', 'a', 'l', 's', 'e'] (by decide)
      (by decide) rest
  | Json.null =>
    exact replTok_skip_unquoted _ _ ['"'] (by decide) ['n', 'u', 'l', 'l'] (by decide)
      (by decide) rest
  | Json.num n => exact absurd hv (by simp [goodVal])
  | Json.arr xs => exact absurd hv (by simp [goodVal])
  | Json.obj ps => exact absurd hv (by simp [goodVal])

theorem pyStrip_nospace_ends (ys : List Char) (a b : Char)
    (ha : pyIsSpace a = false) (hb : pyIsSpace b = false) :
    pyStrip (a :: (ys ++ [b])) = a :: (ys ++ [b]) := by
  have h1 : List.dropWhile pyIsSpace (a :: (ys ++ [b])) = a :: (ys ++ [b]) :=
    List.dropWhile_cons_of_neg (by simp [ha])
  have h2 : List.dropWhile pyIsSpace (b :: (ys.reverse ++ [a])) =
      b :: (ys.reverse ++ [a]) :=
    List.dropWhile_cons_of_neg (by simp [hb])
  rw [pyStrip, h1,
    show (a :: (ys ++ [b])).reverse = b :: (ys.reverse ++ [a]) from by simp, h2]
  simp

theorem normalizeProps_render (m : List (String × Json))
    (h : ∀ p ∈ m, goodKey p.1 = true ∧ goodVal p.2 = true) :
    normalizeProps ('\x7b' :: (renderBody m ++ ['\x7d'])) =
      '\x7b' :: (bodyWith valFinal m ++ ['\x7d']) := by
  rw [normalizeProps]
  rw [show sub1 ('\x7b' :: (renderBody m ++ ['\x7d'])) =
      '\x7b' :: sub1Go [] (renderBody m ++ ['\x7d']) from by
    rw [sub1, sub1Go_flush [] '\x7b' _ (by decide) (by decide)]
    rfl]
  rw [sub1_rendered_body m h]
  rw [show sub2 ('\x7b' :: (bodyWith fvPlain m ++ ['\x7d'])) =
      '\x7b' :: sub2Go none (bodyWith fvPlain m ++ ['\x7d']) from by
    rw [sub2]
    simp only [sub2Go, if_neg (show ('\x7b' : Char) ≠ ':' from by decide)]]
  rw [sub2_body m h]
  rw [show pyReplace ('\x7b' :: (bodyWith fvQuoted m ++ ['\x7d']))
        (": \"true\"").data (": true").data =
      '\x7b' :: replTokGo (": \"true\"").data (": true").data 0
        (bodyWith fvQuoted m ++ ['\x7d']) from by
    rw [pyReplace,
      replTokGo_skip_char _ _ [' ', '"', 't', 'r', 'u', 'e', '"'] (by decide) '\x7b'
        _ (by decide)]]
  rw [replTok_pass_body (": \"true\"").data (": true").data
    [' ', '"', 't', 'r', 'u', 'e', '"'] (by decide) fvQuoted fvT pass_true_step m h]
  rw [show pyReplace ('\x7b' :: (bodyWith fvT m ++ ['\x7d']))
        (": \"false\"").data (": false").data =
      '\x7b' :: replTokGo (": \"false\"").data (": false").data 0
        (bodyWith fvT m ++ ['\x7d']) from by
    rw [pyReplace,
      replTokGo_skip_char _ _ [' ', '"', 'f', 'a', 'l', 's', 'e', '"'] (by decide)
        '\x7b' _ (by decide)]]
  rw [replTok_pass_body (": \"false\"").data (": false").data
    [' ', '"', 'f', 'a', 'l', 's', 'e', '"'] (by decide) fvT fvTF pass_false_step m h]
  rw [show pyReplace ('\x7b' :: (bodyWith fvTF m ++ ['\x7d']))
        (": \"null\"").data (": null").data =
      '\x7b' :: replTokGo (": \"null\"").data (": null").data 0
        (bodyWith fvTF m ++ ['\x7d']) from by
    rw [pyReplace,
      replTokGo_skip_char _ _ [' ', '"', 'n', 'u', 'l', 'l', '"'] (by decide) '\x7b'
        _ (by decide)]]
  rw [replTok_pass_body (": \"null\"").data (": null").data
    [' ', '"', 'n', 'u', 'l', 'l', '"'] (by decide) fvTF valFinal pass_null_step m h]
  rw [show pyReplace ('\x7b' :: (bodyWith valFinal m ++ ['\x7d']))
        (": \"\"").data (": null").data =
      '\x7b' :: replTokGo (": \"\"").data (": null").data 0
        (bodyWith valFinal m ++ ['\x7d']) from by
    rw [pyReplace,
      replTokGo_skip_char _ _ [' ', '"', '"'] (by decide) '\x7b' _ (by decide)]]
  rw [replTok_pass_body (": \"\"").data (": null").data
    [' ', '"', '"'] (by decide) valFinal valFinal pass_empty_step m h]

theorem parseStrChars_word (s : List Char) (hw : ∀ c ∈ s, isWordChar c = true) :
    ∀ (rest : List Char), parseStrChars (s ++ '"' :: rest) = some (s, rest) := by
  induction s with
  | nil =>
    intro rest
    rw [List.nil_append, parseStrChars.eq_def]
    rfl
  | cons c s' ih =>
    intro rest
    have hcw := hw c (List.mem_cons_self _ _)
    rw [List.cons_append, parseStrChars.eq_def]
    simp only [if_neg (wordChar_ne c '"' hcw (by decide)),
      if_neg (wordChar_ne c '\\' hcw (by decide)),
      if_neg (wordChar_not_ctrl c hcw),
      ih (fun d hd => hw d (List.mem_cons_of_mem _ hd))]

theorem skipWs_valFinal (v : Json) (rest : List Char) :
    skipWs (valFinal v ++ rest) = valFinal v ++ rest := by
  match v with
  | Json.str s => rfl
  | Json.num n => rfl
  | Json.bool true => rfl
  | Json.bool false => rfl
  | Json.null => rfl
  | Json.arr xs => rfl
  | Json.obj ps => rfl

theorem skipWs_bodyWith (fv : Json → List Char) (q : String × Json)
    (t : List (String × Json)) (rest : List Char) :
    skipWs (bodyWith fv (q :: t) ++ rest) = bodyWith fv (q :: t) ++ rest := by
  cases t with
  | nil => rfl
  | cons r s => rfl

theorem pj_val_scalar (v : Json) (hv : goodVal v = true) (f : Nat)
    (rest : List Char) :
    pj (f + 1) PMode.val (valFinal v ++ rest) = some (POut.v v, rest) := by
  match v with
  | Json.str s =>
    obtain ⟨hne, hw, _, _, _⟩ := goodVal_str_parts s hv
    have e : valFinal (Json.str s) ++ rest = '"' :: (s.data ++ '"' :: rest) := by
      simp [valFinal, fvQuoted, renderScalar, List.append_assoc]
    rw [e, pj.eq_def]
    simp [parseStrChars_word s.data hw rest]
  | Json.bool true =>
    rw [show valFinal (Json.bool true) ++ rest = 't' :: 'r' :: 'u' :: 'e' :: rest
      from rfl, pj.eq_def]
    simp
  | Json.bool false =>
    rw [show valFinal (Json.bool false) ++ rest = 'f' :: 'a' :: 'l' :: 's' :: 'e' :: rest
      from rfl, pj.eq_def]
    simp
  | Json.null =>
    rw [show valFinal Json.null ++ rest = 'n' :: 'u' :: 'l' :: 'l' :: rest
      from rfl, pj.eq_def]
    simp
  | Json.num n => exact absurd hv (by simp [goodVal])
  | Json.arr xs => exact absurd hv (by simp [goodVal])
  | Json.obj ps => exact absurd hv (by simp [goodVal])

theorem pj_members_body (t : List (String × Json)) :
    ∀ (p : String × Json) (f : Nat) (rest : List Char),
      (∀ q ∈ p :: t, goodKey q.1 = true ∧ goodVal q.2 = true) →
      (p :: t).length + 1 ≤ f →
      pj f PMode.members (bodyWith valFinal (p :: t) ++ '\x7d' :: rest) =
        some (POut.kvs (p :: t), '\x7d' :: rest) := by
  induction t with
  | nil =>
    intro p f rest h hf
    simp only [List.length_cons, List.length_nil] at hf
    obtain ⟨f1, rfl⟩ : ∃ f1, f = f1 + 1 := ⟨f - 1, by omega⟩
    obtain ⟨f2, rfl⟩ : ∃ f2, f1 = f2 + 1 := ⟨f1 - 1, by omega⟩
    obtain ⟨hk, hv⟩ := h p (List.mem_cons_self _ _)
    obtain ⟨hkne, hkw⟩ := goodKey_chars p.1 hk
    have e : bodyWith valFinal [p] ++ '\x7d' :: rest =
        '"' :: (p.1.data ++ '"' ::
          (':' :: ' ' :: (valFinal p.2 ++ '\x7d' :: rest))) := by
      simp [bodyWith, List.append_assoc]
    have hsk1 : skipWs (':' :: ' ' :: (valFinal p.2 ++ '\x7d' :: rest)) =
        ':' :: ' ' :: (valFinal p.2 ++ '\x7d' :: rest) := rfl
    have hsk2 : skipWs (' ' :: (valFinal p.2 ++ '\x7d' :: rest)) =
        valFinal p.2 ++ '\x7d' :: rest := by
      rw [show skipWs (' ' :: (valFinal p.2 ++ '\x7d' :: rest)) =
          skipWs (valFinal p.2 ++ '\x7d' :: rest) from rfl, skipWs_valFinal]
    have hsk4 : skipWs ('\x7d' :: rest) = '\x7d' :: rest := rfl
    rw [e, pj.eq_def]
    simp [parseStrChars_word p.1.data hkw, hsk1, hsk2, hsk4, pj_val_scalar p.2 hv f2]
  | cons q t' ih =>
    intro p f rest h hf
    simp only [List.length_cons, List.length_nil] at hf
    obtain ⟨f1, rfl⟩ : ∃ f1, f = f1 + 1 := ⟨f - 1, by omega⟩
    obtain ⟨f2, rfl⟩ : ∃ f2, f1 = f2 + 1 := ⟨f1 - 1, by omega⟩
    obtain ⟨hk, hv⟩ := h p (List.mem_cons_self _ _)
    obtain ⟨hkne, hkw⟩ := goodKey_chars p.1 hk
    have e : bodyWith valFinal (p :: q :: t') ++ '\x7d' :: rest =
        '"' :: (p.1.data ++ '"' ::
          (':' :: ' ' :: (valFinal p.2 ++
            ',' :: ' ' :: (bodyWith valFinal (q :: t') ++ '\x7d' :: rest)))) := by
      simp [bodyWith, List.append_assoc]
    have hsk1 : skipWs (':' :: ' ' :: (valFinal p.2 ++
        ',' :: ' ' :: (bodyWith valFinal (q :: t') ++ '\x7d' :: rest))) =
        ':' :: ' ' :: (valFinal p.2 ++
          ',' :: ' ' :: (bodyWith valFinal (q :: t') ++ '\x7d' :: rest)) := rfl
    have hsk2 : skipWs (' ' :: (valFinal p.2 ++
        ',' :: ' ' :: (bodyWith valFinal (q :: t') ++ '\x7d' :: rest))) =
        valFinal p.2 ++ ',' :: ' ' :: (bodyWith valFinal (q :: t') ++ '\x7d' :: rest) := by
      rw [show skipWs (' ' :: (valFinal p.2 ++
          ',' :: ' ' :: (bodyWith valFinal (q :: t') ++ '\x7d' :: rest))) =
          skipWs (valFinal p.2 ++
            ',' :: ' ' :: (bodyWith valFinal (q :: t') ++ '\x7d' :: rest)) from rfl,
        skipWs_valFinal]
    have hsk3 : skipWs (',' :: ' ' :: (bodyWith valFinal (q :: t') ++ '\x7d' :: rest)) =
        ',' :: ' ' :: (bodyWith valFinal (q :: t') ++ '\x7d' :: rest) := rfl
    have hsk5 : skipWs (' ' :: (bodyWith valFinal (q :: t') ++ '\x7d' :: rest)) =
        bodyWith valFinal (q :: t') ++ '\x7d' :: rest := by
      rw [show skipWs (' ' :: (bodyWith valFinal (q :: t') ++ '\x7d' :: rest)) =
          skipWs (bodyWith valFinal (q :: t') ++ '\x7d' :: rest) from rfl,
        skipWs_bodyWith]
    have hih := ih q (f2 + 1) rest
      (fun x hx => h x (List.mem_cons_of_mem _ hx))
      (by simp; omega)
    rw [e, pj.eq_def]
    simp [parseStrChars_word p.1.data hkw, hsk1, hsk2, hsk3, hsk5,
      pj_val_scalar p.2 hv f2, hih]

theorem foldl_dinsert_keep {α β : Type} [DecidableEq α] (t : List (α × β)) :
    ∀ (k : α) (v : β) (m : List (α × β)), k ∉ t.map Prod.fst →
      t.foldl (fun m q => dinsert m q.1 q.2) ((k, v) :: m) =
        (k, v) :: t.foldl (fun m q => dinsert m q.1 q.2) m := by
  induction t with
  | nil => intro k v m _; rfl
  | cons q s ih =>
    intro k v m hk
    rw [List.map_cons] at hk
    have hkq : ¬ k = q.1 := fun he => hk (List.mem_cons.mpr (Or.inl he))
    rw [List.foldl_cons, List.foldl_cons,
      show dinsert ((k, v) :: m) q.1 q.2 = (k, v) :: dinsert m q.1 q.2 from by
        rw [dinsert, if_neg hkq],
      ih k v (dinsert m q.1 q.2) (fun hm => hk (List.mem_cons_of_mem _ hm))]

theorem foldl_dinsert_of_nodup {α β : Type} [DecidableEq α] (ps : List (α × β))
    (h : (ps.map Prod.fst).Nodup) :
    ps.foldl (fun m q => dinsert m q.1 q.2) [] = ps := by
  induction ps with
  | nil => rfl
  | cons p t ih =>
    rw [List.map_cons, List.nodup_cons] at h
    rw [List.foldl_cons, show dinsert [] p.1 p.2 = [(p.1, p.2)] from rfl,
      foldl_dinsert_keep t p.1 p.2 [] h.1, ih h.2]

theorem bodyWith_cons_shape (fv : Json → List Char) (p : String × Json)
    (t : List (String × Json)) :
    ∃ z, bodyWith fv (p :: t) = '"' :: z := by
  cases t with
  | nil => exact ⟨_, rfl⟩
  | cons q s =>
    exact ⟨p.1.data ++ ('"' :: ':' :: ' ' ::
      (fv p.2 ++ (',' :: ' ' :: bodyWith fv (q :: s)))), by simp [bodyWith]⟩

theorem bodyWith_length_ge (fv : Json → List Char) :
    ∀ (m : List (String × Json)), m.length ≤ (bodyWith fv m).length := by
  intro m
  induction m with
  | nil => simp [bodyWith]
  | cons p t ih =>
    cases t with
    | nil => simp [bodyWith]
    | cons q t' =>
      rw [bodyWith]
      simp only [List.length_cons, List.length_append] at ih ⊢
      omega

theorem jsonParse_body (p : String × Json) (t : List (String × Json))
    (hnodup : ((p :: t).map Prod.fst).Nodup)
    (h : ∀ q ∈ p :: t, goodKey q.1 = true ∧ goodVal q.2 = true) :
    jsonParse ('\x7b' :: (bodyWith valFinal (p :: t) ++ ['\x7d'])) =
      some (Json.obj (p :: t)) := by
  obtain ⟨z, hz⟩ := bodyWith_cons_shape valFinal p t
  have hsk0 : skipWs ('\x7b' :: (bodyWith valFinal (p :: t) ++ ['\x7d'])) =
      '\x7b' :: (bodyWith valFinal (p :: t) ++ ['\x7d']) := rfl
  have hskb : skipWs (bodyWith valFinal (p :: t) ++ ['\x7d']) =
      bodyWith valFinal (p :: t) ++ ['\x7d'] := skipWs_bodyWith _ _ _ _
  have hc1 : (bodyWith valFinal (p :: t)).head? = some '"' := by
    rw [hz]
    rfl
  have hc2 : ¬ bodyWith valFinal (p :: t) = [] := by
    rw [hz]
    simp
  have hsk6 : skipWs ['\x7d'] = ['\x7d'] := rfl
  have hsk7 : skipWs ([] : List Char) = [] := rfl
  have hmem := pj_members_body t p
    ((bodyWith valFinal (p :: t)).length + 1 + 1) [] h
    (by
      have := bodyWith_length_ge valFinal (p :: t)
      simp only [List.length_cons] at this ⊢
      omega)
  rw [jsonParse, hsk0, pj.eq_def]
  simp [hskb, hc1, hc2, hsk6, hsk7, hmem, foldl_dinsert_of_nodup _ hnodup]

/-- A number does not survive the round trip: the value-quoting pass wraps
`3` in quotes and no replacement unwraps it, so it decodes as the string
`"3"`, not the number `3`. -/
theorem c6_number_counterexample :
    parse_properties (some (render_properties [("n", Json.num 3)])) =
      Json.obj [("n", Json.str "3")] ∧
    Json.obj [("n", Json.str "3")] ≠ Json.obj [("n", Json.num 3)] := by
  refine ⟨rfl, ?_⟩
  intro hc
  simp at hc

/-- C6: rendering a mapping as a relaxed `k: v` blob and running the
property parser on it reproduces the mapping exactly — for mappings with
duplicate-free keys whose keys and string values are nonempty runs of word
characters (string values also distinct from the literal tokens `true`,
`false`, `null`), and whose other values are booleans or null.  Numbers are
excluded: they come back as strings (`c6_number_counterexample`). -/
theorem c6_roundtrip (m : List (String × Json))
    (hnodup : (m.map Prod.fst).Nodup)
    (hgood : ∀ p ∈ m, goodKey p.1 = true ∧ goodVal p.2 = true) :
    parse_properties (some (render_properties m)) = Json.obj m := by
  cases m with
  | nil => rfl
  | cons p t =>
    have hdata : (render_properties (p :: t)).data =
        '\x7b' :: (renderBody (p :: t) ++ ['\x7d']) := rfl
    have hstrip : pyStrip (render_properties (p :: t)).data =
        '\x7b' :: (renderBody (p :: t) ++ ['\x7d']) := by
      rw [hdata]
      exact pyStrip_nospace_ends (renderBody (p :: t)) '\x7b' '\x7d'
        (by decide) (by decide)
    have hbne : renderBody (p :: t) ≠ [] := by
      cases t <;> simp [renderBody]
    have hne2 : ¬ ('\x7b' :: (renderBody (p :: t) ++ ['\x7d'])) =
        ['\x7b', '\x7d'] := by
      intro he
      have hlen := congrArg List.length he
      simp only [List.length_cons, List.length_append, List.length_nil] at hlen
      exact hbne (List.length_eq_zero.mp (by omega))
    have hjson : jsonParse (normalizeProps
        ('\x7b' :: (renderBody (p :: t) ++ ['\x7d']))) =
        some (Json.obj (p :: t)) := by
      rw [normalizeProps_render (p :: t) hgood]
      exact jsonParse_body p t hnodup hgood
    simp only [parse_properties]
    rw [hstrip, if_neg hne2, hjson]

/-- Witness for `c6_roundtrip`: a concrete three-entry mapping with a string,
a boolean and a null value survives the round trip. -/
theorem c6_roundtrip_witness :
    (([("name", Json.str "foo"), ("active", Json.bool true),
        ("x", Json.null)].map Prod.fst).Nodup) ∧
    (∀ p ∈ [("name", Json.str "foo"), ("active", Json.bool true),
        ("x", Json.null)], goodKey p.1 = true ∧ goodVal p.2 = true) ∧
    parse_properties (some (render_properties
        [("name", Json.str "foo"), ("active", Json.bool true),
         ("x", Json.null)])) =
      Json.obj [("name", Json.str "foo"), ("active", Json.bool true),
        ("x", Json.null)] :=
  ⟨by decide, by decide,
    c6_roundtrip _ (by decide) (by decide)⟩
